import Mathlib

/-!
Verification of the opencode-gemini-auth plugin core against its specification.

Strings manipulated character-by-character by the code (splitting, trimming,
searching) are modelled as `List Char` (abbreviated `Str`); strings that are
only stored and compared are modelled as Lean `String`.
-/

set_option maxHeartbeats 1000000

abbrev Str := List Char

/-! ## Credential refresh-string packing (src/plugin/auth.ts)

`parseRefreshParts` splits a packed refresh string on `"|"`;
`formatRefreshParts` joins the four segments with `"|"` and strips the
trailing run of pipes (the `replace(/\|+$/, "")` call).
-/

/-- Model of JS `s.split("|")`: `"".split("|") = [""]`. -/
def splitOnPipe : Str → List Str
  | [] => [[]]
  | c :: rest =>
    if c = '|' then [] :: splitOnPipe rest
    else
      match splitOnPipe rest with
      | [] => [[c]]
      | s :: ss => (c :: s) :: ss

structure RefreshParts where
  refreshToken : Str
  projectId : Option Str
  managedProjectId : Option Str
  email : Option Str
  deriving DecidableEq, Repr

/-- Model of `x || undefined` for a string `x`. -/
def orEmptyUndef (s : Str) : Option Str :=
  if s = [] then none else some s

/-- `parseRefreshParts` from src/plugin/auth.ts: split on `"|"`, defaulting
missing segments to `""`, then map empty optional segments to `undefined`. -/
def parseRefreshParts (refresh : Str) : RefreshParts :=
  let segs := splitOnPipe refresh
  { refreshToken := segs.getD 0 []
    projectId := orEmptyUndef (segs.getD 1 [])
    managedProjectId := orEmptyUndef (segs.getD 2 [])
    email := orEmptyUndef (segs.getD 3 []) }

/-- Model of `.replace(/\|+$/, "")`. -/
def dropTrailingPipes (s : Str) : Str :=
  (s.reverse.dropWhile (· = '|')).reverse

/-- `formatRefreshParts` from src/plugin/auth.ts. -/
def formatRefreshParts (p : RefreshParts) : Str :=
  dropTrailingPipes
    (List.intercalate ['|']
      [p.refreshToken, p.projectId.getD [], p.managedProjectId.getD [], p.email.getD []])

lemma splitOnPipe_ne_nil (s : Str) : splitOnPipe s ≠ [] := by
  induction s with
  | nil => simp [splitOnPipe]
  | cons c rest ih =>
    simp only [splitOnPipe]
    split
    · simp
    · rcases h : splitOnPipe rest with _ | ⟨s, ss⟩ <;> simp

lemma splitOnPipe_no_pipe (a : Str) (ha : '|' ∉ a) : splitOnPipe a = [a] := by
  induction a with
  | nil => rfl
  | cons c rest ih =>
    simp only [List.mem_cons, not_or] at ha
    simp only [splitOnPipe]
    rw [if_neg (fun h => ha.1 h.symm), ih ha.2]

lemma splitOnPipe_append_pipe (a b : Str) (ha : '|' ∉ a) :
    splitOnPipe (a ++ '|' :: b) = a :: splitOnPipe b := by
  induction a with
  | nil => simp [splitOnPipe]
  | cons c rest ih =>
    simp only [List.mem_cons, not_or] at ha
    have hrec : splitOnPipe (rest ++ '|' :: b) = rest :: splitOnPipe b := ih ha.2
    simp only [List.cons_append, splitOnPipe]
    rw [if_neg (fun h => ha.1 h.symm)]
    simp only [List.append_eq] at hrec ⊢
    rw [hrec]

lemma mem_of_getLast?_eq {s : Str} {c : Char} (h : s.getLast? = some c) : c ∈ s := by
  rw [← List.head?_reverse] at h
  have hm : c ∈ s.reverse := by
    rcases hr : s.reverse with _ | ⟨d, t⟩
    · rw [hr] at h
      cases h
    · rw [hr] at h
      simp only [List.head?_cons, Option.some.injEq] at h
      simp [h]
  simpa using hm

lemma dropTrailingPipes_eq_self (s : Str) (h : s.getLast? ≠ some '|') :
    dropTrailingPipes s = s := by
  unfold dropTrailingPipes
  rcases hrev : s.reverse with _ | ⟨c, t⟩
  · simp only [List.reverse_eq_nil_iff] at hrev
    simp [hrev]
  · have hc : c ≠ '|' := by
      intro hc
      apply h
      rw [← List.head?_reverse, hrev, hc]
      rfl
    rw [List.dropWhile_cons_of_neg (by simpa using hc), ← hrev, List.reverse_reverse]

lemma dropTrailingPipes_append_pipe (s : Str) :
    dropTrailingPipes (s ++ ['|']) = dropTrailingPipes s := by
  unfold dropTrailingPipes
  rw [List.reverse_append]
  simp [List.dropWhile_cons]

lemma getLast?_append_cons (a : Str) (c : Char) (b : Str) (hb : b ≠ []) :
    (a ++ c :: b).getLast? = b.getLast? := by
  rw [@List.getLast?_append_of_ne_nil _ a (c :: b) (by simp)]
  rcases b with _ | ⟨d, t⟩
  · exact absurd rfl hb
  · rfl

lemma orEmptyUndef_nil : orEmptyUndef [] = none := rfl

lemma orEmptyUndef_of_ne_nil (s : Str) (h : s ≠ []) : orEmptyUndef s = some s := by
  simp [orEmptyUndef, h]

lemma orEmptyUndef_getD (o : Option Str) (h : o ≠ some []) :
    orEmptyUndef (o.getD []) = o := by
  rcases o with _ | s
  · rfl
  · have hs : s ≠ [] := fun hs => h (by rw [hs])
    simp [orEmptyUndef, hs]

lemma intercalate_four (a b c d : Str) :
    List.intercalate ['|'] [a, b, c, d] = a ++ '|' :: (b ++ '|' :: (c ++ '|' :: d)) := by
  simp [List.intercalate, List.intersperse]

/-- C10. Round trip of the packed refresh string: parsing the formatted
string recovers the original parts, despite the trailing-segment stripping. -/
theorem parse_format_refresh_round_trip (p : RefreshParts)
    (hrt : p.refreshToken ≠ []) (hrtp : '|' ∉ p.refreshToken)
    (hpid : ∀ s, p.projectId = some s → s ≠ [] ∧ '|' ∉ s)
    (hmid : ∀ s, p.managedProjectId = some s → s ≠ [] ∧ '|' ∉ s)
    (hem : ∀ s, p.email = some s → s ≠ [] ∧ '|' ∉ s) :
    parseRefreshParts (formatRefreshParts p) = p := by
  obtain ⟨rt, pid, mid, em⟩ := p
  simp only at hrt hrtp hpid hmid hem
  have hpid2 : pid ≠ some [] := fun h => ((hpid [] h).1 rfl)
  have hmid2 : mid ≠ some [] := fun h => ((hmid [] h).1 rfl)
  have hpg : '|' ∉ pid.getD [] := by
    rcases pid with _ | q
    · simp
    · exact (hpid q rfl).2
  have hmg : '|' ∉ mid.getD [] := by
    rcases mid with _ | m
    · simp
    · exact (hmid m rfl).2
  have hrl : rt.getLast? ≠ some '|' := fun h => hrtp (mem_of_getLast?_eq h)
  unfold formatRefreshParts
  rw [intercalate_four]
  rcases em with _ | e
  · rcases mid with _ | m
    · rcases pid with _ | q
      · -- all optional fields absent: three trailing pipes stripped
        simp only [Option.getD_none, List.nil_append]
        have e1 : rt ++ '|' :: ('|' :: ('|' :: ([] : Str))) = ((rt ++ ['|']) ++ ['|']) ++ ['|'] := by
          simp
        rw [e1, dropTrailingPipes_append_pipe, dropTrailingPipes_append_pipe,
          dropTrailingPipes_append_pipe, dropTrailingPipes_eq_self rt hrl]
        simp [parseRefreshParts, splitOnPipe_no_pipe rt hrtp, orEmptyUndef]
      · -- only projectId present
        obtain ⟨hq1, hq2⟩ := hpid q rfl
        simp only [Option.getD_some, Option.getD_none, List.nil_append]
        have e1 : rt ++ '|' :: (q ++ '|' :: ('|' :: ([] : Str))) =
            ((rt ++ '|' :: q) ++ ['|']) ++ ['|'] := by
          simp
        rw [e1, dropTrailingPipes_append_pipe, dropTrailingPipes_append_pipe,
          dropTrailingPipes_eq_self _ (by
            rw [getLast?_append_cons _ _ _ hq1]
            exact fun h => hq2 (mem_of_getLast?_eq h))]
        rw [parseRefreshParts, splitOnPipe_append_pipe _ _ hrtp, splitOnPipe_no_pipe q hq2]
        simp [orEmptyUndef, hq1]
    · -- managedProjectId present, email absent: one trailing pipe stripped
      obtain ⟨hm1, hm2⟩ := hmid m rfl
      simp only [Option.getD_some, Option.getD_none]
      have e1 : rt ++ '|' :: (pid.getD [] ++ '|' :: (m ++ '|' :: ([] : Str))) =
          (rt ++ '|' :: (pid.getD [] ++ '|' :: m)) ++ ['|'] := by
        simp
      rw [e1, dropTrailingPipes_append_pipe,
        dropTrailingPipes_eq_self _ (by
          rw [getLast?_append_cons _ _ _ (by
            simp only [ne_eq, List.append_eq_nil, not_and]
            intro _ h
            cases h)]
          rw [getLast?_append_cons _ _ _ hm1]
          exact fun h => hm2 (mem_of_getLast?_eq h))]
      rw [parseRefreshParts, splitOnPipe_append_pipe _ _ hrtp,
        splitOnPipe_append_pipe _ _ hpg, splitOnPipe_no_pipe m hm2]
      simp [orEmptyUndef_of_ne_nil m hm1, orEmptyUndef_getD pid hpid2, orEmptyUndef_nil]
  · -- email present: nothing is stripped
    obtain ⟨he1, he2⟩ := hem e rfl
    simp only [Option.getD_some]
    rw [dropTrailingPipes_eq_self _ (by
        rw [getLast?_append_cons _ _ _ (by
          simp only [ne_eq, List.append_eq_nil, not_and]
          intro _ h
          cases h)]
        rw [getLast?_append_cons _ _ _ (by
          simp only [ne_eq, List.append_eq_nil, not_and]
          intro _ h
          cases h)]
        rw [getLast?_append_cons _ _ _ he1]
        exact fun h => he2 (mem_of_getLast?_eq h))]
    rw [parseRefreshParts, splitOnPipe_append_pipe _ _ hrtp,
      splitOnPipe_append_pipe _ _ hpg, splitOnPipe_append_pipe _ _ hmg,
      splitOnPipe_no_pipe e he2]
    simp [orEmptyUndef_of_ne_nil e he1, orEmptyUndef_getD pid hpid2,
      orEmptyUndef_getD mid hmid2]

/-- Witness for C10 at a concrete record with a stripped trailing segment. -/
theorem parse_format_refresh_round_trip_witness :
    parseRefreshParts (formatRefreshParts
      ⟨['r', 't'], some ['p'], none, none⟩) = ⟨['r', 't'], some ['p'], none, none⟩ :=
  parse_format_refresh_round_trip ⟨['r', 't'], some ['p'], none, none⟩
    (by decide) (by decide) (by decide) (by decide) (by decide)

/-! ## Single-flight token refresh (src/plugin/token.ts, `refreshAccessToken`)

The coordinator keeps a module-level `refreshInFlight : Map<string, Promise>`.
A call for a refresh token returns the pending promise when one exists;
otherwise it registers a fresh promise (one network token-exchange chain) and
removes it in a `finally` once settled.  Under the cooperative scheduler the
map check and insert run atomically between suspension points, so the
behaviour is the interleaving semantics below: events are `call t` (a caller
invoking `refreshAccessToken` whose parsed refresh token is `t`) and
`complete t` (the pending promise for `t` settling, which fires the
`finally` delete).  Promises are identified by the counter value at their
creation; a `call` observation is the promise identity the caller awaits.
-/

inductive SFEvent where
  | call (token : String)
  | complete (token : String)
  deriving DecidableEq, Repr

structure SFState where
  inflight : String → Option Nat
  next : Nat

/-- One atomic scheduler step of `refreshAccessToken` bookkeeping: the
lookup/insert on `call` (lines 88-94) and the `finally` delete on
`complete` (lines 98-100).  The second component is the promise identity
returned to the caller on a `call` event. -/
def sfStep (s : SFState) : SFEvent → SFState × Option Nat
  | .call t =>
    match s.inflight t with
    | some id => (s, some id)
    | none =>
      (⟨fun x => if x = t then some s.next else s.inflight x, s.next + 1⟩, some s.next)
  | .complete t => (⟨fun x => if x = t then none else s.inflight x, s.next⟩, none)

/-- Run a trace of events, collecting each event with its observation. -/
def sfRun (s : SFState) : List SFEvent → SFState × List (SFEvent × Option Nat)
  | [] => (s, [])
  | e :: es =>
    let s1 := (sfStep s e).1
    let r := (sfStep s e).2
    ((sfRun s1 es).1, (e, r) :: (sfRun s1 es).2)

/-- Number of network token-exchange chains started for token `t` along a
trace: a `call t` arriving with no pending refresh starts one. -/
def sfStarts (s : SFState) (t : String) : List SFEvent → Nat
  | [] => 0
  | e :: es =>
    (match e with
     | .call u => if u = t ∧ s.inflight t = none then 1 else 0
     | .complete _ => 0) + sfStarts (sfStep s e).1 t es

lemma sfStep_preserves_inflight (s : SFState) (t : String) (id : Nat) (e : SFEvent)
    (hs : s.inflight t = some id) (he : e ≠ SFEvent.complete t) :
    (sfStep s e).1.inflight t = some id := by
  cases e with
  | call u =>
    by_cases hu : u = t
    · subst hu
      simp [sfStep, hs]
    · rcases h : s.inflight u with _ | v
      · simp [sfStep, h, hu, hs]
        intro h2
        exact absurd h2.symm hu
      · simp [sfStep, h, hs]
  | complete u =>
    have hu : u ≠ t := fun h => he (by rw [h])
    simp [sfStep, hs]
    intro h2
    exact absurd h2.symm hu

lemma sfRun_window (t : String) (id : Nat) :
    ∀ (mid : List SFEvent) (s : SFState), s.inflight t = some id →
    (∀ e ∈ mid, e ≠ SFEvent.complete t) →
    (sfRun s mid).1.inflight t = some id ∧
    (∀ p ∈ (sfRun s mid).2, p.1 = SFEvent.call t → p.2 = some id) ∧
    sfStarts s t mid = 0 := by
  intro mid
  induction mid with
  | nil => exact fun s hs _ => ⟨hs, by simp [sfRun], rfl⟩
  | cons e es ih =>
    intro s hs hmid
    have he : e ≠ SFEvent.complete t := hmid e (List.mem_cons_self e es)
    have hmid2 : ∀ x ∈ es, x ≠ SFEvent.complete t :=
      fun x hx => hmid x (List.mem_cons_of_mem e hx)
    have hstep := sfStep_preserves_inflight s t id e hs he
    obtain ⟨h1, h2, h3⟩ := ih (sfStep s e).1 hstep hmid2
    refine ⟨by simpa [sfRun] using h1, ?_, ?_⟩
    · intro p hp hcall
      simp only [sfRun, List.mem_cons] at hp
      rcases hp with hp | hp
      · subst hp
        simp only at hcall
        subst hcall
        simp [sfStep, hs]
      · exact h2 p hp hcall
    · simp only [sfStarts]
      rw [h3]
      cases e with
      | call u => simp [hs]
      | complete u => rfl

/-- C9. Single-flight refresh: a call arriving while a refresh for the same
refresh token is pending observes the existing in-flight promise and changes
nothing; after a call registers a promise, every later call for that token
that arrives before the promise settles observes that same promise, and no
second network token-exchange chain is started for that token in the
meantime. -/
theorem refresh_single_flight (s : SFState) (t : String) (mid : List SFEvent)
    (hmid : ∀ e ∈ mid, e ≠ SFEvent.complete t) :
    (∀ id, s.inflight t = some id → sfStep s (SFEvent.call t) = (s, some id)) ∧
    ((sfRun (sfStep s (SFEvent.call t)).1 mid).1.inflight t = (sfStep s (SFEvent.call t)).2 ∧
     (∀ p ∈ (sfRun (sfStep s (SFEvent.call t)).1 mid).2,
        p.1 = SFEvent.call t → p.2 = (sfStep s (SFEvent.call t)).2) ∧
     sfStarts (sfStep s (SFEvent.call t)).1 t mid = 0) := by
  constructor
  · intro id hid
    simp [sfStep, hid]
  · have hcall : ∃ id, (sfStep s (SFEvent.call t)).1.inflight t = some id ∧
        (sfStep s (SFEvent.call t)).2 = some id := by
      rcases h : s.inflight t with _ | id
      · exact ⟨s.next, by simp [sfStep, h]⟩
      · exact ⟨id, by simp [sfStep, h]⟩
    obtain ⟨id, hid, hret⟩ := hcall
    obtain ⟨h1, h2, h3⟩ := sfRun_window t id mid (sfStep s (SFEvent.call t)).1 hid hmid
    exact ⟨by rw [h1, hret], by
      intro p hp hc
      rw [hret]
      exact h2 p hp hc, h3⟩

/-- Witness for C9: one pending refresh, a second concurrent call for the
same token observes the same promise identity and starts no new exchange. -/
theorem refresh_single_flight_witness :
    (∀ id, (SFState.mk (fun _ => none) 0).inflight "rt" = some id →
      sfStep ⟨fun _ => none, 0⟩ (SFEvent.call "rt") = (⟨fun _ => none, 0⟩, some id)) ∧
    ((sfRun (sfStep ⟨fun _ => none, 0⟩ (SFEvent.call "rt")).1 [SFEvent.call "rt"]).1.inflight "rt" =
        (sfStep ⟨fun _ => none, 0⟩ (SFEvent.call "rt")).2 ∧
     (∀ p ∈ (sfRun (sfStep ⟨fun _ => none, 0⟩ (SFEvent.call "rt")).1 [SFEvent.call "rt"]).2,
        p.1 = SFEvent.call "rt" → p.2 = (sfStep ⟨fun _ => none, 0⟩ (SFEvent.call "rt")).2) ∧
     sfStarts (sfStep ⟨fun _ => none, 0⟩ (SFEvent.call "rt")).1 "rt" [SFEvent.call "rt"] = 0) :=
  refresh_single_flight ⟨fun _ => none, 0⟩ "rt" [SFEvent.call "rt"] (by decide)

/-! ## Token refresh persistence (src/plugin/token.ts, `refreshAccessTokenInternal`)

The refresh exchange result is modelled structurally: an HTTP-level error
carries the parsed OAuth error `code` (the `invalid_grant` detection of
`parseOAuthErrorPayload`), a success carries `access_token`, `expires_in`
and the optional rotated `refresh_token`, and a thrown network error is the
outer catch.  `client.auth.set` calls (the only Auth Store writes) are
collected in a list; the local credential cache (`storeCachedAuth` and
friends) is not the Auth Store and is not modelled here.
-/

structure AuthDetailsM where
  access : Option Str
  expires : Option Nat
  refresh : Str
  deriving DecidableEq, Repr

inductive RefreshResponse where
  | ok (accessToken : Str) (expiresIn : Nat) (refreshToken : Option Str)
  | httpErr (code : Option Str)
  | netError
  deriving DecidableEq, Repr

def invalidGrant : Str := "invalid_grant".data

/-- `refreshAccessTokenInternal` (part_010 lines 103-205) as a function of
the token-endpoint outcome.  Returns the value produced for the caller and
the list of Auth Store writes performed. -/
def refreshAccessTokenInternalModel (auth : AuthDetailsM) (parts : RefreshParts)
    (resp : RefreshResponse) (now : Nat) : Option AuthDetailsM × List AuthDetailsM :=
  match resp with
  | .netError => (none, [])
  | .httpErr code =>
    if code = some invalidGrant then
      (none, [{ access := none, expires := none,
                refresh := formatRefreshParts
                  { refreshToken := [], projectId := parts.projectId,
                    managedProjectId := parts.managedProjectId, email := none } }])
    else
      (none, [])
  | .ok accessToken expiresIn refreshToken =>
    let refreshedToken := refreshToken.getD parts.refreshToken
    let updatedAuth : AuthDetailsM :=
      { access := some accessToken,
        expires := some (now + expiresIn * 1000),
        refresh := formatRefreshParts
          { refreshToken := refreshedToken, projectId := parts.projectId,
            managedProjectId := parts.managedProjectId, email := none } }
    if refreshedToken ≠ parts.refreshToken then
      (some updatedAuth, [updatedAuth])
    else
      (some updatedAuth, [])

/-- C6. The refresh coordinator writes to the Auth Store only on refresh-token
rotation or on revocation: a successful refresh whose server response left
the refresh token unchanged (absent or equal) performs no write, and any
performed write implies the server rotated the token or reported
`invalid_grant`. -/
theorem refresh_writes_only_on_rotation_or_revocation (auth : AuthDetailsM)
    (parts : RefreshParts) (resp : RefreshResponse) (now : Nat) :
    (∀ accessToken expiresIn rt, resp = .ok accessToken expiresIn rt →
      (rt = none ∨ rt = some parts.refreshToken) →
      (refreshAccessTokenInternalModel auth parts resp now).2 = []) ∧
    ((refreshAccessTokenInternalModel auth parts resp now).2 ≠ [] →
      (∃ accessToken expiresIn rt, resp = .ok accessToken expiresIn (some rt) ∧
        rt ≠ parts.refreshToken) ∨
      resp = .httpErr (some invalidGrant)) := by
  constructor
  · rintro accessToken expiresIn rt rfl hrt
    rcases hrt with rfl | rfl <;>
      simp [refreshAccessTokenInternalModel]
  · intro hw
    cases resp with
    | netError => exact absurd rfl hw
    | httpErr code =>
      by_cases hc : code = some invalidGrant
      · exact Or.inr (by rw [hc])
      · exact absurd (by simp [refreshAccessTokenInternalModel, hc]) hw
    | ok accessToken expiresIn rt =>
      left
      rcases rt with _ | r
      · exact absurd (by simp [refreshAccessTokenInternalModel]) hw
      · refine ⟨accessToken, expiresIn, r, rfl, ?_⟩
        intro hr
        exact hw (by simp [refreshAccessTokenInternalModel, hr])

/-- Witness for C6: a success with an unchanged refresh token writes nothing,
and the implication side holds vacuously-checked at the same input. -/
theorem refresh_writes_only_on_rotation_or_revocation_witness :
    ((∀ accessToken expiresIn rt,
        (RefreshResponse.ok "at".data 3600 none) = .ok accessToken expiresIn rt →
        (rt = none ∨ rt = some (['r', 't'] : Str)) →
        (refreshAccessTokenInternalModel ⟨none, none, ['r', 't']⟩
          ⟨['r', 't'], none, none, none⟩ (.ok "at".data 3600 none) 0).2 = []) ∧
     ((refreshAccessTokenInternalModel ⟨none, none, ['r', 't']⟩
          ⟨['r', 't'], none, none, none⟩ (.ok "at".data 3600 none) 0).2 ≠ [] →
        (∃ accessToken expiresIn rt,
          (RefreshResponse.ok "at".data 3600 none) = .ok accessToken expiresIn (some rt) ∧
          rt ≠ (['r', 't'] : Str)) ∨
        (RefreshResponse.ok "at".data 3600 none) = .httpErr (some invalidGrant))) :=
  refresh_writes_only_on_rotation_or_revocation ⟨none, none, ['r', 't']⟩
    ⟨['r', 't'], none, none, none⟩ (.ok "at".data 3600 none) 0

/-! ## Project context resolution (src/plugin/project/context.ts)

`resolveProjectContextFromAccessToken` is modelled as a function of the
parsed credential parts, the configured project id, the (never-throwing)
`loadManagedProject` result and the (never-throwing, `ProjectIdRequiredError`
aside) `onboardManagedProject` result.  JS string truthiness (`""` is falsy)
is modelled by `sTruthy`; `persistAuth` is treated as succeeding.
-/

/-- Character-level model of `String.trim` / JS `.trim()` (whitespace per
`Char.isWhitespace`), kept kernel-reducible. -/
def trimChars (s : List Char) : List Char :=
  ((s.dropWhile Char.isWhitespace).reverse.dropWhile Char.isWhitespace).reverse

/-- `.trim()` on a Lean `String`. -/
def jsTrim (s : String) : String :=
  String.mk (trimChars s.data)

/-- `Array.prototype.join` / `String.intercalate`, kept kernel-reducible. -/
def joinSep (sep : String) (l : List String) : String :=
  String.mk (List.intercalate sep.data (l.map String.data))

/-- JS truthiness for an optional string. -/
def sTruthy : Option String → Bool
  | some s => !(s = "")
  | none => false

/-- JS `a || b` on optional strings (value semantics). -/
def jsOr (a b : Option String) : Option String :=
  if sTruthy a then a else b

inductive ProjVal where
  | str (s : String)
  | proj (id : Option String)
  deriving DecidableEq, Repr

/-- `normalizeProjectId` from src/plugin/project/utils.ts. -/
def normalizeProjectId : Option ProjVal → Option String
  | none => none
  | some (.str s) => if jsTrim s = "" then none else some (jsTrim s)
  | some (.proj (some s)) => if jsTrim s = "" then none else some (jsTrim s)
  | some (.proj none) => none

structure TierM where
  id : Option String
  isDefault : Option Bool
  deriving DecidableEq, Repr

def FREE_TIER_ID : String := "free-tier"
def LEGACY_TIER_ID : String := "legacy-tier"

/-- `pickOnboardTier` from src/plugin/project/utils.ts. -/
def pickOnboardTier (allowedTiers : Option (List TierM)) : TierM :=
  match allowedTiers with
  | some l =>
    if l.length > 0 then
      match l.find? (fun t => t.isDefault = some true) with
      | some t => t
      | none => l.headD { id := some LEGACY_TIER_ID, isDefault := none }
    else { id := some LEGACY_TIER_ID, isDefault := none }
  | none => { id := some LEGACY_TIER_ID, isDefault := none }

/-- `buildIneligibleTierMessage` from src/plugin/project/utils.ts:
reason messages are trimmed, empties dropped, remainder joined with ", ". -/
def buildIneligibleTierMessage (tiers : Option (List (Option String))) : Option String :=
  match tiers with
  | none => none
  | some l =>
    if l.length = 0 then none
    else
      let reasons := (l.filterMap (fun r => r.map jsTrim)).filter (fun m => !(m = ""))
      if reasons.length > 0 then some (joinSep ", " reasons) else none

structure LoadPayloadM where
  cloudaicompanionProject : Option ProjVal
  currentTierId : Option String
  allowedTiers : Option (List TierM)
  ineligibleTiers : Option (List (Option String))
  deriving DecidableEq, Repr

inductive ResolveError where
  | projectIdRequired
  | ineligibleTier (msg : String)
  deriving DecidableEq, Repr

structure AuthPartsM where
  refreshToken : String
  projectId : Option String
  managedProjectId : Option String
  deriving DecidableEq, Repr

/-- Line 47 of context.ts: `configuredProjectId?.trim() || parts.projectId`. -/
def effProjectId (parts : AuthPartsM) (configuredProjectId : Option String) : Option String :=
  jsOr (configuredProjectId.map jsTrim) parts.projectId

/-- `resolveProjectContextFromAccessToken` (context.ts lines 40-101) as a
function of the backend call results; returns the effective project id or
the thrown error. -/
def resolveProjectContext (parts : AuthPartsM) (configuredProjectId : Option String)
    (loadPayload : Option LoadPayloadM) (onboardResult : Option String) :
    Except ResolveError String :=
  if sTruthy (effProjectId parts configuredProjectId) ∨ sTruthy parts.managedProjectId then
    .ok ((jsOr (jsOr (effProjectId parts configuredProjectId) parts.managedProjectId)
      (some "")).getD "")
  else
    match loadPayload with
    | none => .error .projectIdRequired
    | some lp =>
      match normalizeProjectId lp.cloudaicompanionProject with
      | some managedProjectId => .ok managedProjectId
      | none =>
        if sTruthy lp.currentTierId then
          if sTruthy (effProjectId parts configuredProjectId) then
            .ok ((effProjectId parts configuredProjectId).getD "")
          else
            match buildIneligibleTierMessage lp.ineligibleTiers with
            | some msg => .error (.ineligibleTier msg)
            | none => .error .projectIdRequired
        else
          if (pickOnboardTier lp.allowedTiers).id.getD LEGACY_TIER_ID ≠ FREE_TIER_ID ∧
              ¬sTruthy (effProjectId parts configuredProjectId) then
            .error .projectIdRequired
          else
            if sTruthy onboardResult then .ok (onboardResult.getD "")
            else if sTruthy (effProjectId parts configuredProjectId) then
              .ok ((effProjectId parts configuredProjectId).getD "")
            else .error .projectIdRequired

instance : DecidableEq (Except ResolveError String) := fun a b =>
  match a, b with
  | .ok x, .ok y =>
    if h : x = y then isTrue (by rw [h]) else isFalse (by simp [h])
  | .error x, .error y =>
    if h : x = y then isTrue (by rw [h]) else isFalse (by simp [h])
  | .ok _, .error _ => isFalse (by simp)
  | .error _, .ok _ => isFalse (by simp)

/-- C7 counterexample: with no resolvable project, a load payload carrying a
current tier and an ineligible-tier reason makes the resolver throw the
ineligible-tier message `Error`, which is not a `ProjectIdRequiredError`. -/
theorem resolve_project_error_not_only_projectIdRequired :
    ¬(∀ (parts : AuthPartsM) (config : Option String) (load : Option LoadPayloadM)
        (onboard : Option String) (e : ResolveError),
      resolveProjectContext parts config load onboard = .error e →
      e = .projectIdRequired) := by
  intro h
  have := h ⟨"rt", none, none⟩ none
    (some ⟨none, some "standard-tier", none, some [some "Not eligible"]⟩) none
    (.ineligibleTier "Not eligible") (by decide)
  cases this

/-- C7 amended. Every error the resolver throws on the load/onboard path is
either `ProjectIdRequired` or the ineligible-tier message error assembled by
`buildIneligibleTierMessage` from the load payload; all other backend
failures are absorbed by the (never-throwing) API helpers. -/
theorem resolve_project_error_classification (parts : AuthPartsM)
    (config : Option String) (load : Option LoadPayloadM) (onboard : Option String)
    (e : ResolveError)
    (h : resolveProjectContext parts config load onboard = .error e) :
    e = .projectIdRequired ∨
    (∃ lp msg, load = some lp ∧
      buildIneligibleTierMessage lp.ineligibleTiers = some msg ∧
      e = .ineligibleTier msg) := by
  unfold resolveProjectContext at h
  split at h
  · cases h
  · rcases load with _ | lp
    · cases h
      exact Or.inl rfl
    · simp only at h
      split at h
      · cases h
      · split at h
        · split at h
          · cases h
          · rcases hbuild : buildIneligibleTierMessage lp.ineligibleTiers with _ | msg <;>
              rw [hbuild] at h
            · cases h
              exact Or.inl rfl
            · cases h
              exact Or.inr ⟨lp, msg, rfl, hbuild, rfl⟩
        · split at h
          · cases h
            exact Or.inl rfl
          · split at h
            · cases h
            · split at h
              · cases h
              · cases h
                exact Or.inl rfl

/-- Witness for C7 amended at the counterexample input. -/
theorem resolve_project_error_classification_witness :
    (ResolveError.ineligibleTier "Not eligible") = ResolveError.projectIdRequired ∨
    (∃ lp msg,
      (some (LoadPayloadM.mk none (some "standard-tier") none (some [some "Not eligible"]))) = some lp ∧
      buildIneligibleTierMessage lp.ineligibleTiers = some msg ∧
      (ResolveError.ineligibleTier "Not eligible") = .ineligibleTier msg) :=
  resolve_project_error_classification ⟨"rt", none, none⟩ none
    (some ⟨none, some "standard-tier", none, some [some "Not eligible"]⟩) none
    (.ineligibleTier "Not eligible") (by decide)

/-! ## JSON value model

Dynamic JSON payloads rewritten by the Request Transformer are modelled as a
tree; objects are ordered association lists (JS object property order), with
`getField` as property lookup.
-/

inductive Json where
  | null
  | bool (b : Bool)
  | num (q : ℚ)
  | str (s : String)
  | arr (items : List Json)
  | obj (fields : List (String × Json))

/-- JS property read `o[k]` on an object modelled as an ordered field list. -/
def getField (kvs : List (String × Json)) (k : String) : Option Json :=
  (kvs.find? (fun kv => kv.1 == k)).map (fun kv => kv.2)

/-- `Array.isArray` refinement of a property value. -/
def arrVal : Option Json → Option (List Json)
  | some (.arr l) => some l
  | _ => none

lemma sizeOf_snd_lt_of_mem {kv : String × Json} {kvs : List (String × Json)}
    (h : kv ∈ kvs) : sizeOf kv.2 < sizeOf kvs := by
  have h1 := List.sizeOf_lt_of_mem h
  have h2 : sizeOf kv.2 < sizeOf kv := by
    obtain ⟨a, b⟩ := kv
    have hp : sizeOf ((a, b) : String × Json) = 1 + sizeOf a + sizeOf b := rfl
    simp only [hp]
    omega
  omega

lemma sizeOf_getField {kvs : List (String × Json)} {k : String} {v : Json}
    (h : getField kvs k = some v) : sizeOf v < sizeOf kvs := by
  unfold getField at h
  rcases hf : kvs.find? (fun kv => kv.1 == k) with _ | kv
  · rw [hf] at h
    cases h
  · rw [hf] at h
    cases h
    exact sizeOf_snd_lt_of_mem (List.mem_of_find?_eq_some hf)

/-! ## Tool-schema anyOf normalization (src/plugin/request/schema.ts)

`normalizeSchemaAnyOfNodes` rewrites every object node carrying an
`anyOf`/`any_of` array into one whose fields are the union key (with
recursively normalized branches) followed by the preserved, recursively
normalized `$defs`/`defs`/`definitions` siblings
(`readAnyOfDefinitionSiblings`); all other siblings are dropped.  Non-union
objects and arrays are traversed recursively.
-/

def anyOfDefinitionKeys : List String := ["$defs", "defs", "definitions"]

/-- Which union key the node carries and its branches: `anyOf` when that
property is an array, otherwise `any_of` when that one is (schema.ts lines
229-247: the emitted key is `any_of` only when `any_of` is an array and
`anyOf` is not). -/
def unionOf (kvs : List (String × Json)) : Option (String × List Json) :=
  match arrVal (getField kvs "anyOf") with
  | some l => some ("anyOf", l)
  | none =>
    match arrVal (getField kvs "any_of") with
    | some l => some ("any_of", l)
    | none => none

lemma sizeOf_unionOf {kvs : List (String × Json)} {ku : String × List Json}
    (h : unionOf kvs = some ku) : sizeOf ku.2 < sizeOf kvs := by
  unfold unionOf at h
  rcases h1 : arrVal (getField kvs "anyOf") with _ | l
  · rw [h1] at h
    rcases h2 : arrVal (getField kvs "any_of") with _ | l
    · rw [h2] at h
      cases h
    · rw [h2] at h
      cases h
      rcases hg : getField kvs "any_of" with _ | v <;> rw [hg] at h2
      · cases h2
      · rcases v with _ | _ | _ | _ | items | _ <;> cases h2
        have := sizeOf_getField hg
        simp only [Json.arr.sizeOf_spec] at this
        dsimp only
        omega
  · rw [h1] at h
    cases h
    rcases hg : getField kvs "anyOf" with _ | v <;> rw [hg] at h1
    · cases h1
    · rcases v with _ | _ | _ | _ | items | _ <;> cases h1
      have := sizeOf_getField hg
      simp only [Json.arr.sizeOf_spec] at this
      dsimp only
      omega

mutual

def normalizeSchemaAnyOfNodes : Json → Json
  | .null => .null
  | .bool b => .bool b
  | .num q => .num q
  | .str s => .str s
  | .arr l => .arr (normalizeJsonList l)
  | .obj kvs =>
    match h : unionOf kvs with
    | some ku =>
      .obj ((ku.1, Json.arr (normalizeJsonList ku.2)) :: normalizeDefKeys anyOfDefinitionKeys kvs)
    | none => .obj (normalizeJsonFields kvs)
termination_by j => (sizeOf j, 0)
decreasing_by
  · simp_wf
    omega
  · have := sizeOf_unionOf h
    simp_wf
    omega
  · simp_wf
    omega
  · simp_wf
    omega

def normalizeJsonList : List Json → List Json
  | [] => []
  | x :: xs => normalizeSchemaAnyOfNodes x :: normalizeJsonList xs
termination_by l => (sizeOf l, 0)
decreasing_by
  · simp_wf
    omega
  · simp_wf
    omega

def normalizeJsonFields : List (String × Json) → List (String × Json)
  | [] => []
  | kv :: rest => (kv.1, normalizeSchemaAnyOfNodes kv.2) :: normalizeJsonFields rest
termination_by kvs => (sizeOf kvs, 0)
decreasing_by
  · have h2 : sizeOf kv.2 < sizeOf kv := by
      obtain ⟨a, b⟩ := kv
      have hp : sizeOf ((a, b) : String × Json) = 1 + sizeOf a + sizeOf b := rfl
      simp only [hp]
      omega
    simp_wf
    omega
  · simp_wf
    omega

/-- `readAnyOfDefinitionSiblings` (schema.ts lines 257-266): preserve and
recursively normalize the definition-block siblings, in key-set order. -/
def normalizeDefKeys : List String → List (String × Json) → List (String × Json)
  | [], _ => []
  | k :: ks, kvs =>
    match h : getField kvs k with
    | some v => (k, normalizeSchemaAnyOfNodes v) :: normalizeDefKeys ks kvs
    | none => normalizeDefKeys ks kvs
termination_by ks kvs => (sizeOf kvs, ks.length)
decreasing_by
  · have := sizeOf_getField h
    simp_wf
    omega
  · simp_wf
    omega
  · simp_wf
    omega

end

lemma normalizeJsonList_eq_map (l : List Json) :
    normalizeJsonList l = l.map normalizeSchemaAnyOfNodes := by
  induction l with
  | nil => simp [normalizeJsonList]
  | cons x xs ih => rw [normalizeJsonList, ih, List.map_cons]

lemma normalizeJsonFields_eq_map (kvs : List (String × Json)) :
    normalizeJsonFields kvs = kvs.map (fun kv => (kv.1, normalizeSchemaAnyOfNodes kv.2)) := by
  induction kvs with
  | nil => simp [normalizeJsonFields]
  | cons kv rest ih => rw [normalizeJsonFields, ih, List.map_cons]

lemma normalizeDefKeys_eq_filterMap (ks : List String) (kvs : List (String × Json)) :
    normalizeDefKeys ks kvs =
      ks.filterMap (fun k => (getField kvs k).map (fun v => (k, normalizeSchemaAnyOfNodes v))) := by
  induction ks with
  | nil => simp [normalizeDefKeys]
  | cons k ks ih =>
    rw [normalizeDefKeys]
    rcases h : getField kvs k with _ | v
    · rw [ih, List.filterMap_cons]
      simp [h]
    · rw [ih, List.filterMap_cons]
      simp [h]

/-- Schema-validity predicate checked by the claim: every object node that
carries an `anyOf`/`any_of` union has no field keys besides its union key
and the definition-block keys, recursively through the whole tree. -/
def unionKeysOkB (kvs : List (String × Json)) : Bool :=
  match unionOf kvs with
  | some ku => kvs.all (fun kv => kv.1 == ku.1 || anyOfDefinitionKeys.contains kv.1)
  | none => true

mutual

def anyOfNormalizedB : Json → Bool
  | .null => true
  | .bool _ => true
  | .num _ => true
  | .str _ => true
  | .arr l => anyOfNormalizedListB l
  | .obj kvs => unionKeysOkB kvs && anyOfNormalizedFieldsB kvs
termination_by j => (sizeOf j, 0)
decreasing_by
  · simp_wf
    omega
  · simp_wf
    omega

def anyOfNormalizedListB : List Json → Bool
  | [] => true
  | x :: xs => anyOfNormalizedB x && anyOfNormalizedListB xs
termination_by l => (sizeOf l, 0)
decreasing_by
  · simp_wf
    omega
  · simp_wf
    omega

def anyOfNormalizedFieldsB : List (String × Json) → Bool
  | [] => true
  | kv :: rest => anyOfNormalizedB kv.2 && anyOfNormalizedFieldsB rest
termination_by kvs => (sizeOf kvs, 0)
decreasing_by
  · have h2 : sizeOf kv.2 < sizeOf kv := by
      obtain ⟨a, b⟩ := kv
      have hp : sizeOf ((a, b) : String × Json) = 1 + sizeOf a + sizeOf b := rfl
      simp only [hp]
      omega
    simp_wf
    omega
  · simp_wf
    omega

end

lemma anyOfNormalizedListB_eq_all (l : List Json) :
    anyOfNormalizedListB l = l.all anyOfNormalizedB := by
  induction l with
  | nil => simp [anyOfNormalizedListB]
  | cons x xs ih => rw [anyOfNormalizedListB, ih, List.all_cons]

lemma anyOfNormalizedFieldsB_eq_all (kvs : List (String × Json)) :
    anyOfNormalizedFieldsB kvs = kvs.all (fun kv => anyOfNormalizedB kv.2) := by
  induction kvs with
  | nil => simp [anyOfNormalizedFieldsB]
  | cons kv rest ih => rw [anyOfNormalizedFieldsB, ih, List.all_cons]

lemma json_sizeOf_pos (j : Json) : 0 < sizeOf j := by
  cases j <;> simp <;> omega

lemma normalize_obj_union {kvs : List (String × Json)} {ku : String × List Json}
    (h : unionOf kvs = some ku) :
    normalizeSchemaAnyOfNodes (.obj kvs) =
      .obj ((ku.1, Json.arr (normalizeJsonList ku.2)) ::
        normalizeDefKeys anyOfDefinitionKeys kvs) := by
  rw [normalizeSchemaAnyOfNodes]
  split
  · next ku2 heq =>
    rw [h] at heq
    cases heq
    rfl
  · next heq =>
    rw [h] at heq
    cases heq

lemma normalize_obj_nonunion {kvs : List (String × Json)} (h : unionOf kvs = none) :
    normalizeSchemaAnyOfNodes (.obj kvs) = .obj (normalizeJsonFields kvs) := by
  rw [normalizeSchemaAnyOfNodes]
  split
  · next ku2 heq =>
    rw [h] at heq
    cases heq
  · rfl

lemma getField_cons (k : String) (v : Json) (rest : List (String × Json)) (k2 : String) :
    getField ((k, v) :: rest) k2 = if k == k2 then some v else getField rest k2 := by
  by_cases h : k == k2 <;> simp [getField, List.find?_cons, h]

lemma getField_map_values (f : Json → Json) (kvs : List (String × Json)) (k : String) :
    getField (kvs.map (fun kv => (kv.1, f kv.2))) k = (getField kvs k).map f := by
  induction kvs with
  | nil => rfl
  | cons kv rest ih =>
    obtain ⟨k1, v1⟩ := kv
    rw [List.map_cons]
    rw [getField_cons, getField_cons]
    by_cases h : k1 == k <;> simp [h, ih]

lemma arrVal_map_normalize (o : Option Json) :
    arrVal (o.map normalizeSchemaAnyOfNodes) = (arrVal o).map normalizeJsonList := by
  rcases o with _ | v
  · rfl
  · cases v with
    | arr l => simp [normalizeSchemaAnyOfNodes, arrVal]
    | obj kvs =>
      rcases h : unionOf kvs with _ | ku
      · simp [normalize_obj_nonunion h, arrVal]
      · simp [normalize_obj_union h, arrVal]
    | null => simp [normalizeSchemaAnyOfNodes, arrVal]
    | bool b => simp [normalizeSchemaAnyOfNodes, arrVal]
    | num q => simp [normalizeSchemaAnyOfNodes, arrVal]
    | str s => simp [normalizeSchemaAnyOfNodes, arrVal]

lemma unionOf_normalizeJsonFields (kvs : List (String × Json)) :
    unionOf (normalizeJsonFields kvs) =
      (unionOf kvs).map (fun ku => (ku.1, normalizeJsonList ku.2)) := by
  unfold unionOf
  rw [normalizeJsonFields_eq_map, getField_map_values, getField_map_values,
    arrVal_map_normalize, arrVal_map_normalize]
  rcases h1 : arrVal (getField kvs "anyOf") with _ | l
  · rcases h2 : arrVal (getField kvs "any_of") with _ | m <;> simp [h1, h2]
  · simp [h1]

lemma unionOf_key {kvs : List (String × Json)} {ku : String × List Json}
    (h : unionOf kvs = some ku) : ku.1 = "anyOf" ∨ ku.1 = "any_of" := by
  unfold unionOf at h
  rcases h1 : arrVal (getField kvs "anyOf") with _ | l <;> rw [h1] at h
  · rcases h2 : arrVal (getField kvs "any_of") with _ | m <;> rw [h2] at h
    · cases h
    · cases h
      right
      rfl
  · cases h
    left
    rfl

lemma getField_normalizeDefKeys_not_mem {ks : List String} {kvs : List (String × Json)}
    {k : String} (h : k ∉ ks) : getField (normalizeDefKeys ks kvs) k = none := by
  rw [normalizeDefKeys_eq_filterMap]
  induction ks with
  | nil => rfl
  | cons k1 rest ih =>
    simp only [List.mem_cons, not_or] at h
    rw [List.filterMap_cons]
    rcases hg : getField kvs k1 with _ | v
    · simp only [hg, Option.map_none']
      exact ih h.2
    · simp only [hg, Option.map_some']
      rw [getField_cons]
      rw [if_neg (by simpa using fun he => h.1 he.symm)]
      exact ih h.2

lemma normalize_arr (l : List Json) :
    normalizeSchemaAnyOfNodes (.arr l) = .arr (normalizeJsonList l) := by
  rw [normalizeSchemaAnyOfNodes]

lemma anyOfNormalizedB_arr (l : List Json) :
    anyOfNormalizedB (.arr l) = anyOfNormalizedListB l := by
  rw [anyOfNormalizedB]

lemma anyOfNormalizedB_obj (kvs : List (String × Json)) :
    anyOfNormalizedB (.obj kvs) = (unionKeysOkB kvs && anyOfNormalizedFieldsB kvs) := by
  rw [anyOfNormalizedB]

lemma mem_normalizeDefKeys {kv : String × Json} {ks : List String}
    {kvs : List (String × Json)} (h : kv ∈ normalizeDefKeys ks kvs) :
    ∃ k v, k ∈ ks ∧ getField kvs k = some v ∧ kv = (k, normalizeSchemaAnyOfNodes v) := by
  rw [normalizeDefKeys_eq_filterMap] at h
  obtain ⟨k, hk, hmap⟩ := List.mem_filterMap.mp h
  rcases hg : getField kvs k with _ | v <;> rw [hg] at hmap
  · cases hmap
  · cases hmap
    exact ⟨k, v, hk, hg, rfl⟩

lemma unionOf_normalized_union {kvs : List (String × Json)} {ku : String × List Json}
    (hu : unionOf kvs = some ku) :
    unionOf ((ku.1, Json.arr (normalizeJsonList ku.2)) ::
        normalizeDefKeys anyOfDefinitionKeys kvs) =
      some (ku.1, normalizeJsonList ku.2) := by
  rcases unionOf_key hu with hk | hk
  · unfold unionOf
    rw [getField_cons, hk]
    simp [arrVal]
  · unfold unionOf
    have hno : getField (normalizeDefKeys anyOfDefinitionKeys kvs) "anyOf" = none :=
      getField_normalizeDefKeys_not_mem (by decide)
    rw [getField_cons, hk]
    simp only [show (("any_of" == "anyOf") = false) from rfl, if_false, hno]
    rw [getField_cons]
    simp [arrVal]

/-- After normalization, every object node in the tree that carries an
`anyOf`/`any_of` union has only the union key and definition-block keys. -/
lemma normalize_anyOf_invariant (j : Json) :
    anyOfNormalizedB (normalizeSchemaAnyOfNodes j) = true := by
  suffices h : ∀ n (j : Json), sizeOf j ≤ n →
      anyOfNormalizedB (normalizeSchemaAnyOfNodes j) = true from h (sizeOf j) j le_rfl
  intro n
  induction n with
  | zero =>
    intro j hj
    exact absurd hj (by have := json_sizeOf_pos j; omega)
  | succ n ih =>
    intro j hj
    cases j with
    | null => rw [normalizeSchemaAnyOfNodes, anyOfNormalizedB]
    | bool b => rw [normalizeSchemaAnyOfNodes, anyOfNormalizedB]
    | num q => rw [normalizeSchemaAnyOfNodes, anyOfNormalizedB]
    | str s => rw [normalizeSchemaAnyOfNodes, anyOfNormalizedB]
    | arr l =>
      have hsz : sizeOf l ≤ n := by
        simp only [Json.arr.sizeOf_spec] at hj
        omega
      rw [normalize_arr, anyOfNormalizedB_arr, anyOfNormalizedListB_eq_all,
        normalizeJsonList_eq_map]
      simp only [List.all_eq_true]
      intro y hy
      obtain ⟨x, hx, rfl⟩ := List.mem_map.mp hy
      have hx2 : sizeOf x ≤ n := by
        have := List.sizeOf_lt_of_mem hx
        omega
      exact ih x hx2
    | obj kvs =>
      have hsz : sizeOf kvs ≤ n := by
        simp only [Json.obj.sizeOf_spec] at hj
        omega
      rcases hu : unionOf kvs with _ | ku
      · rw [normalize_obj_nonunion hu, anyOfNormalizedB_obj]
        have h1 : unionKeysOkB (normalizeJsonFields kvs) = true := by
          unfold unionKeysOkB
          rw [unionOf_normalizeJsonFields, hu]
          rfl
        rw [h1, Bool.true_and, anyOfNormalizedFieldsB_eq_all, normalizeJsonFields_eq_map]
        simp only [List.all_eq_true]
        intro kv hkv
        obtain ⟨kv0, hkv0, rfl⟩ := List.mem_map.mp hkv
        have : sizeOf kv0.2 ≤ n := by
          have := sizeOf_snd_lt_of_mem hkv0
          omega
        exact ih kv0.2 this
      · rw [normalize_obj_union hu, anyOfNormalizedB_obj]
        have hkeysOk : unionKeysOkB ((ku.1, Json.arr (normalizeJsonList ku.2)) ::
            normalizeDefKeys anyOfDefinitionKeys kvs) = true := by
          unfold unionKeysOkB
          rw [unionOf_normalized_union hu]
          simp only [List.all_cons, Bool.and_eq_true, List.all_eq_true]
          constructor
          · simp
          · intro kv hkv
            obtain ⟨k, v, hk, _, rfl⟩ := mem_normalizeDefKeys hkv
            simp only [Bool.or_eq_true, beq_iff_eq, List.contains_eq_any_beq]
            right
            simp only [List.any_eq_true]
            exact ⟨k, hk, by simp⟩
        have hfieldsOk : anyOfNormalizedFieldsB ((ku.1, Json.arr (normalizeJsonList ku.2)) ::
            normalizeDefKeys anyOfDefinitionKeys kvs) = true := by
          rw [anyOfNormalizedFieldsB_eq_all]
          simp only [List.all_cons, List.all_eq_true, Bool.and_eq_true]
          constructor
          · rw [anyOfNormalizedB_arr, anyOfNormalizedListB_eq_all, normalizeJsonList_eq_map]
            simp only [List.all_eq_true]
            intro y hy
            obtain ⟨x, hx, rfl⟩ := List.mem_map.mp hy
            have hx2 : sizeOf x ≤ n := by
              have h1 := List.sizeOf_lt_of_mem hx
              have h2 := sizeOf_unionOf hu
              omega
            exact ih x hx2
          · intro kv hkv
            obtain ⟨k, v, _, hg, rfl⟩ := mem_normalizeDefKeys hkv
            have : sizeOf v ≤ n := by
              have := sizeOf_getField hg
              omega
            exact ih v this
        rw [hkeysOk, hfieldsOk]
        rfl

/-- C4. A schema node carrying an `anyOf`/`any_of` union is replaced by a
node whose fields are exactly the union key (branches recursively
normalized) followed by the preserved `$defs`/`defs`/`definitions` siblings
(recursively normalized); every other sibling is dropped — each output field
key is the union key or a definition key — and the rewrite is total over the
tree: every union node at any depth of the output satisfies the key
restriction. -/
theorem anyOf_union_node_normalization (kvs : List (String × Json)) (key : String)
    (branches : List Json) (h : unionOf kvs = some (key, branches)) :
    normalizeSchemaAnyOfNodes (.obj kvs) =
      .obj ((key, .arr (branches.map normalizeSchemaAnyOfNodes)) ::
        anyOfDefinitionKeys.filterMap
          (fun k => (getField kvs k).map (fun v => (k, normalizeSchemaAnyOfNodes v)))) ∧
    (∀ kv ∈ ((key, Json.arr (branches.map normalizeSchemaAnyOfNodes)) ::
        anyOfDefinitionKeys.filterMap
          (fun k => (getField kvs k).map (fun v => (k, normalizeSchemaAnyOfNodes v)))),
      kv.1 = key ∨ kv.1 ∈ anyOfDefinitionKeys) ∧
    (∀ j, anyOfNormalizedB (normalizeSchemaAnyOfNodes j) = true) := by
  refine ⟨?_, ?_, normalize_anyOf_invariant⟩
  · rw [normalize_obj_union h, normalizeJsonList_eq_map, normalizeDefKeys_eq_filterMap]
  · intro kv hkv
    rcases List.mem_cons.mp hkv with rfl | hkv2
    · exact Or.inl rfl
    · right
      have : kv ∈ normalizeDefKeys anyOfDefinitionKeys kvs := by
        rw [normalizeDefKeys_eq_filterMap]
        exact hkv2
      obtain ⟨k, v, hk, _, rfl⟩ := mem_normalizeDefKeys this
      exact hk

/-- Witness for C4 at a union node with a `description` sibling (dropped)
and a `$defs` sibling (preserved). -/
theorem anyOf_union_node_normalization_witness :
    normalizeSchemaAnyOfNodes (.obj [("anyOf", .arr [.obj [("type", .str "null")]]),
        ("description", .str "drop me"), ("$defs", .obj [])]) =
      .obj (("anyOf", .arr ([Json.obj [("type", .str "null")]].map normalizeSchemaAnyOfNodes)) ::
        anyOfDefinitionKeys.filterMap
          (fun k => (getField [("anyOf", Json.arr [.obj [("type", .str "null")]]),
              ("description", Json.str "drop me"), ("$defs", Json.obj [])] k).map
            (fun v => (k, normalizeSchemaAnyOfNodes v)))) ∧
    (∀ kv ∈ (("anyOf",
          Json.arr ([Json.obj [("type", .str "null")]].map normalizeSchemaAnyOfNodes)) ::
        anyOfDefinitionKeys.filterMap
          (fun k => (getField [("anyOf", Json.arr [.obj [("type", .str "null")]]),
              ("description", Json.str "drop me"), ("$defs", Json.obj [])] k).map
            (fun v => (k, normalizeSchemaAnyOfNodes v)))),
      kv.1 = "anyOf" ∨ kv.1 ∈ anyOfDefinitionKeys) ∧
    (∀ j, anyOfNormalizedB (normalizeSchemaAnyOfNodes j) = true) :=
  anyOf_union_node_normalization
    [("anyOf", .arr [.obj [("type", .str "null")]]),
     ("description", .str "drop me"), ("$defs", .obj [])]
    "anyOf" [.obj [("type", .str "null")]] rfl

/-! ## JS object update operations

`setKey` models JS property assignment / spread override on an object with
unique keys: an existing key keeps its position and gets the new value, a
new key is appended.  `deleteKey` models `delete o[k]`. -/

def setKey : List (String × Json) → String → Json → List (String × Json)
  | [], k, v => [(k, v)]
  | kv :: rest, k, v => if kv.1 = k then (k, v) :: rest else kv :: setKey rest k v

def deleteKey (kvs : List (String × Json)) (k : String) : List (String × Json) :=
  kvs.filter (fun kv => !(kv.1 == k))

lemma getField_setKey_same (kvs : List (String × Json)) (k : String) (v : Json) :
    getField (setKey kvs k v) k = some v := by
  induction kvs with
  | nil => simp [setKey, getField_cons]
  | cons kv rest ih =>
    rw [setKey]
    by_cases h : kv.1 = k
    · rw [if_pos h, getField_cons]
      simp
    · rw [if_neg h, getField_cons, if_neg (by simpa using h)]
      exact ih

lemma getField_cons_pair (kv : String × Json) (rest : List (String × Json)) (k2 : String) :
    getField (kv :: rest) k2 = if kv.1 == k2 then some kv.2 else getField rest k2 := by
  obtain ⟨a, b⟩ := kv
  exact getField_cons a b rest k2

lemma getField_setKey_other (kvs : List (String × Json)) (k k2 : String) (v : Json)
    (h : k2 ≠ k) : getField (setKey kvs k v) k2 = getField kvs k2 := by
  induction kvs with
  | nil =>
    rw [show setKey [] k v = [(k, v)] from rfl, getField_cons,
      if_neg (by simpa using fun he => h he.symm)]
  | cons kv rest ih =>
    rw [setKey]
    by_cases h0 : kv.1 = k
    · rw [if_pos h0, getField_cons, getField_cons_pair, h0,
        if_neg (by simpa using fun he => h he.symm),
        if_neg (by simpa using fun he => h he.symm)]
    · rw [if_neg h0, getField_cons_pair, getField_cons_pair, ih]

lemma getField_deleteKey_same (kvs : List (String × Json)) (k : String) :
    getField (deleteKey kvs k) k = none := by
  induction kvs with
  | nil => rfl
  | cons kv rest ih =>
    rw [deleteKey, List.filter_cons]
    by_cases h : kv.1 = k
    · rw [if_neg (by simp [h])]
      exact ih
    · rw [if_pos (by simp [h]), getField_cons_pair, if_neg (by simpa using h)]
      exact ih

lemma getField_deleteKey_other (kvs : List (String × Json)) (k k2 : String)
    (h : k2 ≠ k) : getField (deleteKey kvs k) k2 = getField kvs k2 := by
  induction kvs with
  | nil => rfl
  | cons kv rest ih =>
    rw [deleteKey, List.filter_cons]
    by_cases h0 : kv.1 = k
    · rw [if_neg (by simp [h0]), getField_cons_pair,
        if_neg (by simp only [beq_iff_eq, h0]; exact fun he => h he.symm)]
      exact ih
    · rw [if_pos (by simp [h0]), getField_cons_pair, getField_cons_pair]
      by_cases h2 : kv.1 = k2
      · simp [h2]
      · rw [if_neg (by simpa using h2), if_neg (by simpa using h2)]
        exact ih

/-! ## Streaming SSE rewrite (src/plugin/request/shared.ts,
`transformStreamingPayloadStream`)

The byte stream is modelled as text chunks (the `TextDecoder` is run in
stream mode, so multi-byte boundaries are already handled at the text
level).  The pump loop appends each chunk to a buffer, repeatedly splits
off complete lines at `"\n"`, strips a trailing `"\r"`, rewrites the line,
and re-appends the original terminator; on stream end a non-empty residual
buffer is rewritten and flushed without a terminator.  The line rewrite is
kept generic in `f`; the `data:` JSON rewrite itself is modelled below at
the parsed-object level. -/

/-- Split a buffer at the first `"\n"`. -/
def breakAtNl : Str → Option (Str × Str)
  | [] => none
  | c :: rest =>
    if c = '\n' then some ([], rest)
    else
      match breakAtNl rest with
      | none => none
      | some lr => some (c :: lr.1, lr.2)

lemma breakAtNl_none_of_no_nl (s : Str) (h : '\n' ∉ s) : breakAtNl s = none := by
  induction s with
  | nil => rfl
  | cons c rest ih =>
    simp only [List.mem_cons, not_or] at h
    rw [breakAtNl, if_neg (fun he => h.1 he.symm), ih h.2]

lemma no_nl_of_breakAtNl_none (s : Str) (h : breakAtNl s = none) : '\n' ∉ s := by
  induction s with
  | nil => simp
  | cons c rest ih =>
    rw [breakAtNl] at h
    by_cases hc : c = '\n'
    · rw [if_pos hc] at h
      cases h
    · rw [if_neg hc] at h
      rcases hb : breakAtNl rest with _ | lr <;> rw [hb] at h
      · simp only [List.mem_cons, not_or]
        exact ⟨fun he => hc he.symm, ih hb⟩
      · cases h

lemma breakAtNl_some_split {s l r} (h : breakAtNl s = some (l, r)) :
    s = l ++ '\n' :: r ∧ '\n' ∉ l := by
  induction s generalizing l with
  | nil => cases h
  | cons c rest ih =>
    rw [breakAtNl] at h
    by_cases hc : c = '\n'
    · rw [if_pos hc] at h
      cases h
      exact ⟨by rw [hc]; rfl, by simp⟩
    · rw [if_neg hc] at h
      rcases hb : breakAtNl rest with _ | lr <;> rw [hb] at h
      · cases h
      · cases h
        obtain ⟨h1, h2⟩ := ih hb
        constructor
        · rw [List.cons_append, ← h1]
        · simp only [List.mem_cons, not_or]
          exact ⟨fun he => hc he.symm, h2⟩

lemma breakAtNl_split (l r : Str) (hl : '\n' ∉ l) :
    breakAtNl (l ++ '\n' :: r) = some (l, r) := by
  induction l with
  | nil => simp [breakAtNl]
  | cons c rest ih =>
    simp only [List.mem_cons, not_or] at hl
    rw [List.cons_append, breakAtNl, if_neg (fun he => hl.1 he.symm), ih hl.2]

/-- Emission of one complete line (pump loop lines 218-227): strip the
trailing `"\r"`, rewrite, re-append the original terminator. -/
def emitLine (f : Str → Str) (line : Str) : Str :=
  if line.getLast? = some '\r' then f line.dropLast ++ ['\r', '\n'] else f line ++ ['\n']

/-- Drain all complete lines from the buffer, returning the emitted output
and the residual partial line. -/
def extractLines (f : Str → Str) (buf : Str) : Str × Str :=
  match h : breakAtNl buf with
  | none => ([], buf)
  | some lr =>
    (emitLine f lr.1 ++ (extractLines f lr.2).1, (extractLines f lr.2).2)
termination_by buf.length
decreasing_by
  have := (breakAtNl_some_split h).1
  subst this
  simp
  omega

/-- The whole stream transformer over a list of read chunks, starting from
buffer `buf`: each chunk is appended to the buffer and complete lines are
drained; at end-of-stream a non-empty residual is rewritten and flushed. -/
def processChunks (f : Str → Str) (buf : Str) : List Str → Str
  | [] => if buf = [] then [] else f buf
  | c :: cs =>
    (extractLines f (buf ++ c)).1 ++ processChunks f (extractLines f (buf ++ c)).2 cs

/-- The same computation on the fully concatenated stream. -/
def oneShot (f : Str → Str) (s : Str) : Str :=
  (extractLines f s).1 ++
    (if (extractLines f s).2 = [] then [] else f (extractLines f s).2)

lemma extractLines_none {f : Str → Str} {buf : Str} (h : breakAtNl buf = none) :
    extractLines f buf = ([], buf) := by
  rw [extractLines]
  split
  · rfl
  · next lr heq =>
    rw [h] at heq
    cases heq

lemma extractLines_some {f : Str → Str} {buf : Str} {lr : Str × Str}
    (h : breakAtNl buf = some lr) :
    extractLines f buf =
      (emitLine f lr.1 ++ (extractLines f lr.2).1, (extractLines f lr.2).2) := by
  rw [extractLines]
  split
  · next heq =>
    rw [h] at heq
    cases heq
  · next lr2 heq =>
    rw [h] at heq
    cases heq
    rfl

lemma extractLines_snd_no_nl (f : Str → Str) (s : Str) :
    '\n' ∉ (extractLines f s).2 := by
  suffices hh : ∀ n (s : Str), s.length ≤ n → '\n' ∉ (extractLines f s).2 from
    hh s.length s le_rfl
  intro n
  induction n with
  | zero =>
    intro s hs
    rw [List.length_eq_zero.mp (Nat.le_zero.mp hs)]
    rw [extractLines_none (by rfl)]
    simp
  | succ n ih =>
    intro s hs
    rcases hb : breakAtNl s with _ | lr
    · rw [extractLines_none hb]
      exact no_nl_of_breakAtNl_none s hb
    · rw [extractLines_some hb]
      obtain ⟨h1, _⟩ := breakAtNl_some_split hb
      have : lr.2.length ≤ n := by
        subst h1
        simp at hs
        omega
      exact ih lr.2 this

lemma extractLines_append (f : Str → Str) :
    ∀ (a b : Str),
      extractLines f (a ++ b) =
        ((extractLines f a).1 ++ (extractLines f ((extractLines f a).2 ++ b)).1,
         (extractLines f ((extractLines f a).2 ++ b)).2) := by
  suffices hh : ∀ n (a b : Str), a.length ≤ n →
      extractLines f (a ++ b) =
        ((extractLines f a).1 ++ (extractLines f ((extractLines f a).2 ++ b)).1,
         (extractLines f ((extractLines f a).2 ++ b)).2) from
    fun a b => hh a.length a b le_rfl
  intro n
  induction n with
  | zero =>
    intro a b ha
    rw [List.length_eq_zero.mp (Nat.le_zero.mp ha)]
    rw [show extractLines f [] = ([], []) from extractLines_none rfl]
    simp
  | succ n ih =>
    intro a b ha
    rcases hb : breakAtNl a with _ | lr
    · rw [extractLines_none hb]
      simp
    · obtain ⟨h1, h2⟩ := breakAtNl_some_split hb
      have hab : breakAtNl (a ++ b) = some (lr.1, lr.2 ++ b) := by
        subst h1
        rw [List.append_assoc, List.cons_append]
        exact breakAtNl_split lr.1 (lr.2 ++ b) h2
      rw [extractLines_some hab, extractLines_some hb]
      have hlen : lr.2.length ≤ n := by
        subst h1
        simp at ha
        omega
      rw [ih lr.2 b hlen]
      simp

/-- Decomposition of a stream into `"\n"`-separated segments
(`s = intercalate "\n" (splitNl s)`); the final segment is the unterminated
remainder. -/
def splitNl : Str → List Str
  | [] => [[]]
  | c :: rest =>
    if c = '\n' then [] :: splitNl rest
    else
      match splitNl rest with
      | [] => [[c]]
      | s :: ss => (c :: s) :: ss

/-- The spec-side shape of the rewritten stream: every complete segment is
rewritten with its carriage return stripped and its exact terminator
restored; a non-empty final remainder is rewritten without terminator. -/
def joinEmit (f : Str → Str) : List Str → Str
  | [] => []
  | [last] => if last = [] then [] else f last
  | seg :: rest => emitLine f seg ++ joinEmit f rest

lemma splitNl_ne_nil (s : Str) : splitNl s ≠ [] := by
  induction s with
  | nil => simp [splitNl]
  | cons c rest ih =>
    rw [splitNl]
    split
    · simp
    · rcases h : splitNl rest with _ | ⟨x, xs⟩ <;> simp

lemma splitNl_no_nl (s : Str) (h : '\n' ∉ s) : splitNl s = [s] := by
  induction s with
  | nil => rfl
  | cons c rest ih =>
    simp only [List.mem_cons, not_or] at h
    rw [splitNl, if_neg (fun he => h.1 he.symm), ih h.2]

lemma splitNl_split (l r : Str) (hl : '\n' ∉ l) :
    splitNl (l ++ '\n' :: r) = l :: splitNl r := by
  induction l with
  | nil => simp [splitNl]
  | cons c rest ih =>
    simp only [List.mem_cons, not_or] at hl
    have hrec := ih hl.2
    rw [List.cons_append, splitNl, if_neg (fun he => hl.1 he.symm)]
    simp only [List.append_eq] at hrec ⊢
    rw [hrec]

lemma oneShot_eq_joinEmit (f : Str → Str) (s : Str) :
    oneShot f s = joinEmit f (splitNl s) := by
  suffices hh : ∀ n (s : Str), s.length ≤ n → oneShot f s = joinEmit f (splitNl s) from
    hh s.length s le_rfl
  intro n
  induction n with
  | zero =>
    intro s hs
    rw [List.length_eq_zero.mp (Nat.le_zero.mp hs)]
    rw [oneShot, extractLines_none (by rfl)]
    rfl
  | succ n ih =>
    intro s hs
    rcases hb : breakAtNl s with _ | lr
    · have hnl := no_nl_of_breakAtNl_none s hb
      rw [oneShot, extractLines_none hb, splitNl_no_nl s hnl]
      rfl
    · obtain ⟨h1, h2⟩ := breakAtNl_some_split hb
      have hlen : lr.2.length ≤ n := by
        subst h1
        simp at hs
        omega
      have hsplit : splitNl s = lr.1 :: splitNl lr.2 := by
        rw [h1]
        exact splitNl_split lr.1 lr.2 h2
      rw [oneShot, extractLines_some hb, hsplit]
      have hje : joinEmit f (lr.1 :: splitNl lr.2) =
          emitLine f lr.1 ++ joinEmit f (splitNl lr.2) := by
        rcases hsp : splitNl lr.2 with _ | ⟨x, xs⟩
        · exact absurd hsp (splitNl_ne_nil lr.2)
        · rfl
      rw [hje, ← ih lr.2 hlen, oneShot]
      simp

lemma processChunks_eq_oneShot (f : Str → Str) :
    ∀ (chunks : List Str) (buf : Str), '\n' ∉ buf →
      processChunks f buf chunks = oneShot f (buf ++ chunks.flatten) := by
  intro chunks
  induction chunks with
  | nil =>
    intro buf hbuf
    rw [processChunks, List.flatten_nil, List.append_nil, oneShot,
      extractLines_none (breakAtNl_none_of_no_nl buf hbuf)]
    simp
  | cons c cs ih =>
    intro buf hbuf
    rw [processChunks, List.flatten_cons, ih _ (extractLines_snd_no_nl f (buf ++ c)),
      ← List.append_assoc, oneShot, oneShot, extractLines_append f (buf ++ c) cs.flatten]
    simp [List.append_assoc]

/-! ### The `data:` line rewrite at the parsed-JSON level
(`injectResponseIdFromTrace` and `transformStreamingLine`). -/

def getFieldJ : Json → String → Option Json
  | .obj kvs, k => getField kvs k
  | _, _ => none

/-- `readString` from shared.ts: a string value, trimmed, empty mapped to
`undefined`. -/
def readStringJ : Option Json → Option String
  | some (.str s) => if jsTrim s = "" then none else some (jsTrim s)
  | _ => none

/-- `isRecord`: non-null `typeof value === "object"` (arrays included). -/
def isRecordJ : Json → Bool
  | .obj _ => true
  | .arr _ => true
  | _ => false

/-- JS object spread of a record value (arrays spread to index keys). -/
def spreadToObj : Json → List (String × Json)
  | .obj kvs => kvs
  | .arr l => l.enum.map (fun p => (toString p.1, p.2))
  | _ => []

/-- `injectResponseIdFromTrace` (shared.ts lines 50-72). -/
def injectResponseIdFromTrace (body : List (String × Json)) : List (String × Json) :=
  match readStringJ (getField body "traceId") with
  | none => body
  | some traceId =>
    match getField body "response" with
    | none => body
    | some resp =>
      if isRecordJ resp then
        match readStringJ (getFieldJ resp "responseId") with
        | some _ => body
        | none =>
          setKey body "response"
            (.obj (setKey (spreadToObj resp) "responseId" (.str traceId)))
      else body

/-- `transformStreamingLine` (shared.ts lines 244-263) once the line has been
parsed: the line is replaced by `data: <response sub-object>` when present,
and passes through verbatim otherwise. -/
def transformStreamingLineJson (parsed : List (String × Json)) : Option Json :=
  getField (injectResponseIdFromTrace parsed) "response"

/-- C8 counterexample to the claim as stated: when the inner `response`
object itself carries a `traceId` key, the emitted line still contains a
`traceId` key even though its `responseId` was synthesized from the
envelope's `traceId`. -/
theorem stream_traceId_key_leak :
    ¬(∀ (body resp out : List (String × Json)) (traceId : String),
        readStringJ (getField body "traceId") = some traceId →
        getField body "response" = some (.obj resp) →
        readStringJ (getFieldJ (.obj resp) "responseId") = none →
        getField (injectResponseIdFromTrace body) "response" = some (.obj out) →
        getField out "traceId" = none) := by
  intro h
  have h2 := h [("traceId", .str "t"), ("response", .obj [("traceId", .str "u")])]
      [("traceId", .str "u")] [("traceId", .str "u"), ("responseId", .str "t")] "t"
      rfl rfl rfl rfl
  rw [show getField [("traceId", Json.str "u"), ("responseId", Json.str "t")] "traceId" =
      some (Json.str "u") from rfl] at h2
  cases h2

/-- C8 amended. The streaming rewriter is chunk-boundary independent (its
output equals the one-shot rewrite of the concatenated stream), its output
re-emits every line with the input's exact terminators (trailing `"\r\n"`
preserved, final unterminated remainder flushed bare), and a `data:` line
whose `responseId` is synthesized from the envelope `traceId` emits the
inner response object extended with `responseId` — so it contains no
`traceId` key unless the inner response object itself carried one. -/
theorem streaming_rewrite_boundary_and_trace (f : Str → Str) (chunks : List Str) (s : Str)
    (body resp : List (String × Json)) (traceId : String)
    (h1 : readStringJ (getField body "traceId") = some traceId)
    (h2 : getField body "response" = some (.obj resp))
    (h3 : readStringJ (getFieldJ (.obj resp) "responseId") = none) :
    processChunks f [] chunks = oneShot f chunks.flatten ∧
    oneShot f s = joinEmit f (splitNl s) ∧
    injectResponseIdFromTrace body =
      setKey body "response" (.obj (setKey resp "responseId" (.str traceId))) ∧
    (getField resp "traceId" = none →
      getField (setKey resp "responseId" (.str traceId)) "traceId" = none) := by
  refine ⟨?_, oneShot_eq_joinEmit f s, ?_, ?_⟩
  · simpa using processChunks_eq_oneShot f chunks [] (by simp)
  · rw [injectResponseIdFromTrace, h1]
    dsimp only
    rw [h2]
    dsimp only
    rw [show isRecordJ (.obj resp) = true from rfl]
    rw [if_pos rfl]
    rw [h3]
    dsimp only
    rw [show spreadToObj (.obj resp) = resp from rfl]
  · intro h4
    rw [getField_setKey_other resp "responseId" "traceId" _ (by decide), h4]

/-- Witness for C8 at a two-chunk stream split mid-line and a concrete
synthesized `data:` body. -/
theorem streaming_rewrite_boundary_and_trace_witness :
    processChunks (fun l => l) [] [['a'], ['\r', '\n', 'b']] =
      oneShot (fun l => l) ([['a'], ['\r', '\n', 'b']] : List Str).flatten ∧
    oneShot (fun l => l) ['a', '\n'] = joinEmit (fun l => l) (splitNl ['a', '\n']) ∧
    injectResponseIdFromTrace [("traceId", .str "t"), ("response", .obj [])] =
      setKey [("traceId", .str "t"), ("response", .obj [])] "response"
        (.obj (setKey [] "responseId" (.str "t"))) ∧
    (getField [] "traceId" = none →
      getField (setKey [] "responseId" (.str "t")) "traceId" = none) :=
  streaming_rewrite_boundary_and_trace (fun l => l) [['a'], ['\r', '\n', 'b']]
    ['a', '\n'] [("traceId", .str "t"), ("response", .obj [])] [] "t" rfl rfl rfl

/-! ## 429 quota classification (src/plugin/retry/quota.ts)

The parsed error body (`parseErrorBody`) is modelled structurally: `none`
stands for an unreadable/unparseable body, and details are discriminated by
their `@type`.  `Number(...)` is modelled on unsigned decimal literals
(digits with at most one dot); other numeric forms (signs, hex, exponents)
are treated as NaN, matching the payloads this parser is aimed at. -/

def isDigitOrDot (c : Char) : Bool := c.isDigit || c = '.'

def digitsToNat (s : Str) : Nat :=
  s.foldl (fun a c => a * 10 + (c.toNat - '0'.toNat)) 0

/-- Decimal literal parse: `digits [. digits]` with at least one digit;
anything else is NaN (`none`). -/
def parseDecimal (s : Str) : Option ℚ :=
  match s.drop (s.takeWhile Char.isDigit).length with
  | [] => if s.takeWhile Char.isDigit = [] then none else some (digitsToNat s)
  | '.' :: frac =>
    if frac.all Char.isDigit ∧ (s.takeWhile Char.isDigit ≠ [] ∨ frac ≠ []) then
      some ((digitsToNat (s.takeWhile Char.isDigit) : ℚ) +
        (digitsToNat frac : ℚ) / ((10 : ℚ) ^ frac.length))
    else none
  | _ => none

/-- JS `Number(x)` on the strings this code feeds it: trimmed, `""` is `0`,
decimal literals parse, the rest is NaN. -/
def jsNumber (s : Str) : Option ℚ :=
  if trimChars s = [] then some 0 else parseDecimal (trimChars s)

/-- JS `Math.round` (half toward positive infinity). -/
def jsRound (q : ℚ) : ℤ := ⌊q + 1 / 2⌋

inductive DelayVal where
  | s (raw : Str)
  | obj (seconds : Option ℚ) (nanos : Option ℚ)

/-- `parseRetryDelayValue` (quota.ts lines 141-166). -/
def parseRetryDelayValue : DelayVal → Option Nat
  | .s raw =>
    if trimChars raw = [] then none
    else if 2 ≤ (trimChars raw).length ∧
        (trimChars raw).drop ((trimChars raw).length - 2) = ['m', 's'] then
      match jsNumber ((trimChars raw).take ((trimChars raw).length - 2)) with
      | some q => if 0 < q then some (jsRound q).toNat else none
      | none => none
    else
      match (trimChars raw).getLast? with
      | some 's' =>
        if (trimChars raw).dropLast ≠ [] ∧ (trimChars raw).dropLast.all isDigitOrDot then
          match parseDecimal ((trimChars raw).dropLast) with
          | some q => if 0 < q then some (jsRound (q * 1000)).toNat else none
          | none => none
        else none
      | _ => none
  | .obj seconds nanos =>
    if 0 < jsRound (seconds.getD 0 * 1000 + nanos.getD 0 / 1000000) then
      some (jsRound (seconds.getD 0 * 1000 + nanos.getD 0 / 1000000)).toNat
    else none

/-- Case-insensitive character match (the `/i` regex flag). -/
def ciEq (a b : Char) : Bool := a.toLower == b.toLower

/-- Match a literal pattern case-insensitively at the head of the input,
returning the rest. -/
def ciStrip : Str → Str → Option Str
  | [], input => some input
  | _ :: _, [] => none
  | p :: ps, c :: cs => if ciEq p c then ciStrip ps cs else none

/-- `([0-9.]+(?:ms|s))` with `/i`: a maximal digit/dot run followed by
`ms` or `s`; the returned group keeps the original casing. -/
def matchDelayToken (cs : Str) : Option Str :=
  if cs.takeWhile isDigitOrDot = [] then none
  else
    match cs.drop (cs.takeWhile isDigitOrDot).length with
    | a :: b :: _ =>
      if ciEq a 'm' ∧ ciEq b 's' then some (cs.takeWhile isDigitOrDot ++ [a, b])
      else if ciEq a 's' then some (cs.takeWhile isDigitOrDot ++ [a])
      else none
    | [a] => if ciEq a 's' then some (cs.takeWhile isDigitOrDot ++ [a]) else none
    | [] => none

/-- Leftmost match of `/Please retry in ([0-9.]+(?:ms|s))/i`. -/
def scanRetryIn : Str → Option Str
  | [] => none
  | c :: rest =>
    match ciStrip "Please retry in ".data (c :: rest) with
    | some tail =>
      match matchDelayToken tail with
      | some tok => some tok
      | none => scanRetryIn rest
    | none => scanRetryIn rest

/-- Leftmost match of `/after\s+([0-9.]+(?:ms|s))/i`. -/
def scanAfter : Str → Option Str
  | [] => none
  | c :: rest =>
    match ciStrip "after".data (c :: rest) with
    | some tail =>
      if tail.takeWhile Char.isWhitespace = [] then scanAfter rest
      else
        match matchDelayToken (tail.drop (tail.takeWhile Char.isWhitespace).length) with
        | some tok => some tok
        | none => scanAfter rest
    | none => scanAfter rest

/-- `parseRetryDelayFromMessage` (quota.ts lines 168-180): when a pattern
matches, its group is parsed and returned even if the parse fails. -/
def parseRetryDelayFromMessage (msg : Str) : Option Nat :=
  match scanRetryIn msg with
  | some tok => parseRetryDelayValue (.s tok)
  | none =>
    match scanAfter msg with
    | some tok => parseRetryDelayValue (.s tok)
    | none => none

structure ErrorInfoD where
  reason : Option Str
  domain : Option Str
  quotaLimit : Option Str
  deriving DecidableEq, Repr

structure ViolationD where
  quotaId : Option Str
  description : Option Str
  deriving DecidableEq, Repr

inductive DetailD where
  | retryInfo (retryDelay : Option DelayVal)
  | errorInfo (info : ErrorInfoD)
  | quotaFailure (violations : Option (List ViolationD))
  | other

structure ErrorPayload where
  message : Option Str
  details : List DetailD

def findRetryInfoDelay (details : List DetailD) : Option (Option DelayVal) :=
  match details.find? (fun d => match d with | .retryInfo _ => true | _ => false) with
  | some (.retryInfo rd) => some rd
  | _ => none

def findErrorInfo (details : List DetailD) : Option ErrorInfoD :=
  match details.find? (fun d => match d with | .errorInfo _ => true | _ => false) with
  | some (.errorInfo e) => some e
  | _ => none

def findQuotaFailure (details : List DetailD) : Option (Option (List ViolationD)) :=
  match details.find? (fun d => match d with | .quotaFailure _ => true | _ => false) with
  | some (.quotaFailure v) => some v
  | _ => none

/-- JS truthiness of `retryInfo.retryDelay` (an empty string is falsy). -/
def delayTruthy : DelayVal → Bool
  | .s [] => false
  | _ => true

/-- Lines 54-57 of quota.ts: `RetryInfo.retryDelay` parse, falling back to
the message-text parse. -/
def quotaRetryDelayMs (p : ErrorPayload) : Option Nat :=
  match
    (match findRetryInfoDelay p.details with
     | some (some v) => if delayTruthy v then parseRetryDelayValue v else none
     | _ => none) with
  | some d => some d
  | none => parseRetryDelayFromMessage (p.message.getD [])

def CLOUDCODE_DOMAINS : List Str :=
  ["cloudcode-pa.googleapis.com".data, "staging-cloudcode-pa.googleapis.com".data,
   "autopush-cloudcode-pa.googleapis.com".data]

def lowerStr (s : Str) : Str := s.map Char.toLower

def isPrefixOfB : Str → Str → Bool
  | [], _ => true
  | _ :: _, [] => false
  | a :: as, b :: bs => a == b && isPrefixOfB as bs

/-- JS `String.prototype.includes`. -/
def strIncludes : Str → Str → Bool
  | [], needle => isPrefixOfB needle []
  | c :: rest, needle => isPrefixOfB needle (c :: rest) || strIncludes rest needle

/-- Line 65 of quota.ts: a truthy `ErrorInfo.domain` outside the Cloud Code
allow-list suppresses classification. -/
def domainBlocked (errorInfo : Option ErrorInfoD) : Bool :=
  match errorInfo with
  | some ei =>
    match ei.domain with
    | some d => !(d = []) && !(CLOUDCODE_DOMAINS.contains d)
    | none => false
  | none => false

structure QuotaCtx where
  terminal : Bool
  retryDelayMs : Option Nat
  reason : Option Str
  deriving DecidableEq, Repr

def QUOTA_EXHAUSTED : Str := "QUOTA_EXHAUSTED".data
def RATE_LIMIT_EXCEEDED : Str := "RATE_LIMIT_EXCEEDED".data
def MODEL_CAPACITY_EXHAUSTED : Str := "MODEL_CAPACITY_EXHAUSTED".data

/-- Lines 82-107 of quota.ts: the `QuotaFailure` violation-text and
`metadata.quota_limit` fallbacks. -/
def quotaFallback (p : ErrorPayload) (retryDelayMs : Option Nat)
    (ei : Option ErrorInfoD) : QuotaCtx :=
  match findQuotaFailure p.details with
  | some (some violations) =>
    if 0 < violations.length then
      if strIncludes (lowerStr (List.intercalate [' ']
            (violations.flatMap (fun v => [v.quotaId.getD [], v.description.getD []]))))
          "perday".data ||
         strIncludes (lowerStr (List.intercalate [' ']
            (violations.flatMap (fun v => [v.quotaId.getD [], v.description.getD []]))))
          "daily".data ||
         strIncludes (lowerStr (List.intercalate [' ']
            (violations.flatMap (fun v => [v.quotaId.getD [], v.description.getD []]))))
          "per day".data then
        ⟨true, retryDelayMs, ei.bind (fun e => e.reason)⟩
      else if strIncludes (lowerStr (List.intercalate [' ']
            (violations.flatMap (fun v => [v.quotaId.getD [], v.description.getD []]))))
          "perminute".data ||
        strIncludes (lowerStr (List.intercalate [' ']
            (violations.flatMap (fun v => [v.quotaId.getD [], v.description.getD []]))))
          "per minute".data then
        ⟨false, some (retryDelayMs.getD 60000), ei.bind (fun e => e.reason)⟩
      else ⟨false, retryDelayMs, ei.bind (fun e => e.reason)⟩
    else quotaLimitFallback retryDelayMs ei
  | _ => quotaLimitFallback retryDelayMs ei
where
  quotaLimitFallback (retryDelayMs : Option Nat) (ei : Option ErrorInfoD) : QuotaCtx :=
    if strIncludes (lowerStr ((ei.bind (fun e => e.quotaLimit)).getD [])) "perminute".data ||
       strIncludes (lowerStr ((ei.bind (fun e => e.quotaLimit)).getD [])) "per minute".data then
      ⟨false, some (retryDelayMs.getD 60000), ei.bind (fun e => e.reason)⟩
    else ⟨false, retryDelayMs, ei.bind (fun e => e.reason)⟩

/-- `classifyQuotaResponse` (quota.ts lines 42-108) on the parsed body. -/
def classifyQuotaResponse (payload : Option ErrorPayload) : Option QuotaCtx :=
  match payload with
  | none => none
  | some p =>
    if domainBlocked (findErrorInfo p.details) then none
    else
      match findErrorInfo p.details with
      | some ei =>
        if ei.reason = some QUOTA_EXHAUSTED then
          some ⟨true, quotaRetryDelayMs p, ei.reason⟩
        else if ei.reason = some RATE_LIMIT_EXCEEDED then
          some ⟨false, some ((quotaRetryDelayMs p).getD 10000), ei.reason⟩
        else if ei.reason = some MODEL_CAPACITY_EXHAUSTED then
          some ⟨(quotaRetryDelayMs p).isNone, quotaRetryDelayMs p, ei.reason⟩
        else some (quotaFallback p (quotaRetryDelayMs p) (some ei))
      | none => some (quotaFallback p (quotaRetryDelayMs p) none)

/-! ## Retry/backoff engine (src/plugin/retry/index.ts, `fetchWithRetry`)

The attempt loop (lines 37-107) is modelled over an oracle giving each
attempt's outcome: a network error (with its retryability and the abort
flag observed afterwards) or a response (status, parsed 429 body, abort
flag, and the value `resolveRetryDelayMs` would produce — that value mixes
header parsing, the body parse and the jittered backoff, and only feeds the
wait and the retryable-429 cooldown).  The cooldown map carries
`retryCooldownByKey` entries as absolute timestamps with `0` for "absent"
(matching the `?? 0` read in `setRetryCooldown`); `now` is `Date.now()` at
the call.  The fall-through fetch after the loop (line 106) is the
`fellThrough` outcome, counted as a fetch. -/

inductive AttemptOutcome where
  | netError (retryable : Bool) (abortedAfter : Bool)
  | response (status : Nat) (payload : Option ErrorPayload) (abortedAfter : Bool)
      (resolvedDelayMs : Nat)

inductive RunOutcome where
  | returned (attempt status : Nat)
  | threw (attempt : Nat)
  | fellThrough
  deriving DecidableEq, Repr

structure RunResult where
  outcome : RunOutcome
  fetches : Nat
  cooldowns : Str → Nat

def DEFAULT_MAX_ATTEMPTS : Nat := 3
def MODEL_CAPACITY_COOLDOWN_MS : Nat := 8000

/-- `isRetryableStatus` from retry/helpers.ts. -/
def isRetryableStatusM (status : Nat) : Bool :=
  status == 429 || (500 ≤ status && status < 600)

/-- `setRetryCooldown` (index.ts lines 148-153). -/
def setRetryCooldown (m : Str → Nat) (key : Str) (now delayMs : Nat) : Str → Nat :=
  fun k => if k = key then max (m key) (now + delayMs) else m k

def retryLoop (outcomes : Nat → AttemptOutcome) (key : Str) (now : Nat) :
    Nat → Nat → (Str → Nat) → RunResult :=
  fun attempt fetches m =>
    if _h : attempt ≤ DEFAULT_MAX_ATTEMPTS then
      match outcomes attempt with
      | .netError retryable aborted =>
        if DEFAULT_MAX_ATTEMPTS ≤ attempt ∨ ¬retryable then
          ⟨.threw attempt, fetches + 1, m⟩
        else if aborted then ⟨.threw attempt, fetches + 1, m⟩
        else retryLoop outcomes key now (attempt + 1) (fetches + 1) m
      | .response status payload aborted resolvedDelay =>
        if ¬isRetryableStatusM status then ⟨.returned attempt status, fetches + 1, m⟩
        else
          match (if status == 429 then classifyQuotaResponse payload else none) with
          | some ctx =>
            if ctx.terminal then
              if ctx.reason = some MODEL_CAPACITY_EXHAUSTED then
                ⟨.returned attempt status, fetches + 1,
                  setRetryCooldown m key now (ctx.retryDelayMs.getD MODEL_CAPACITY_COOLDOWN_MS)⟩
              else ⟨.returned attempt status, fetches + 1, m⟩
            else if DEFAULT_MAX_ATTEMPTS ≤ attempt ∨ aborted then
              ⟨.returned attempt status, fetches + 1, m⟩
            else
              retryLoop outcomes key now (attempt + 1) (fetches + 1)
                (if 0 < resolvedDelay ∧ status == 429 then
                  setRetryCooldown m key now resolvedDelay
                 else m)
          | none =>
            if DEFAULT_MAX_ATTEMPTS ≤ attempt ∨ aborted then
              ⟨.returned attempt status, fetches + 1, m⟩
            else
              retryLoop outcomes key now (attempt + 1) (fetches + 1)
                (if 0 < resolvedDelay ∧ status == 429 then
                  setRetryCooldown m key now resolvedDelay
                 else m)
    else ⟨.fellThrough, fetches + 1, m⟩
termination_by attempt => DEFAULT_MAX_ATTEMPTS + 1 - attempt
decreasing_by
  · simp [DEFAULT_MAX_ATTEMPTS] at _h ⊢
    omega
  · simp [DEFAULT_MAX_ATTEMPTS] at _h ⊢
    omega
  · simp [DEFAULT_MAX_ATTEMPTS] at _h ⊢
    omega

/-- `fetchWithRetry` for a retry-eligible request, from the first attempt. -/
def fetchWithRetryModel (outcomes : Nat → AttemptOutcome) (key : Str) (now : Nat)
    (m₀ : Str → Nat) : RunResult :=
  retryLoop outcomes key now 1 0 m₀

lemma retryLoop_no_fallthrough :
    ∀ (k a : Nat), a + k = DEFAULT_MAX_ATTEMPTS + 1 → 1 ≤ k →
    ∀ (o : Nat → AttemptOutcome) (key : Str) (now f : Nat) (m : Str → Nat),
      (retryLoop o key now a f m).outcome ≠ .fellThrough ∧
      (retryLoop o key now a f m).fetches ≤ f + k := by
  intro k
  induction k with
  | zero => exact fun a _ h1 => absurd h1 (by omega)
  | succ k ih =>
    intro a ha _ o key now f m
    have haa : a ≤ DEFAULT_MAX_ATTEMPTS := by
      simp only [DEFAULT_MAX_ATTEMPTS] at ha ⊢
      omega
    rw [retryLoop, dif_pos haa]
    rcases ho : o a with ⟨r, ab⟩ | ⟨st, pl, ab, rd⟩ <;> dsimp only
    · by_cases hc : DEFAULT_MAX_ATTEMPTS ≤ a ∨ ¬(r = true)
      · rw [if_pos hc]
        exact ⟨by simp, by dsimp only; omega⟩
      · rw [if_neg hc]
        by_cases hab : ab = true
        · rw [if_pos hab]
          exact ⟨by simp, by dsimp only; omega⟩
        · rw [if_neg hab]
          have hk : 1 ≤ k := by
            simp only [not_or, not_le, DEFAULT_MAX_ATTEMPTS] at hc
            simp only [DEFAULT_MAX_ATTEMPTS] at ha
            omega
          obtain ⟨h1, h2⟩ := ih (a + 1) (by omega) hk o key now (f + 1) m
          exact ⟨h1, by omega⟩
    · by_cases hs : isRetryableStatusM st = true
      · rw [if_neg (by simp [hs])]
        rcases hq : (if st == 429 then classifyQuotaResponse pl else none) with _ | ctx <;>
          dsimp only
        · by_cases hc : DEFAULT_MAX_ATTEMPTS ≤ a ∨ ab = true
          · rw [if_pos hc]
            exact ⟨by simp, by dsimp only; omega⟩
          · rw [if_neg hc]
            have hk : 1 ≤ k := by
              simp only [not_or, not_le, DEFAULT_MAX_ATTEMPTS] at hc
              simp only [DEFAULT_MAX_ATTEMPTS] at ha
              omega
            obtain ⟨h1, h2⟩ := ih (a + 1) (by omega) hk o key now (f + 1) _
            exact ⟨h1, by omega⟩
        · by_cases ht : ctx.terminal = true
          · rw [if_pos ht]
            by_cases hr : ctx.reason = some MODEL_CAPACITY_EXHAUSTED
            · rw [if_pos hr]
              exact ⟨by simp, by dsimp only; omega⟩
            · rw [if_neg hr]
              exact ⟨by simp, by dsimp only; omega⟩
          · rw [if_neg ht]
            by_cases hc : DEFAULT_MAX_ATTEMPTS ≤ a ∨ ab = true
            · rw [if_pos hc]
              exact ⟨by simp, by dsimp only; omega⟩
            · rw [if_neg hc]
              have hk : 1 ≤ k := by
                simp only [not_or, not_le, DEFAULT_MAX_ATTEMPTS] at hc
                simp only [DEFAULT_MAX_ATTEMPTS] at ha
                omega
              obtain ⟨h1, h2⟩ := ih (a + 1) (by omega) hk o key now (f + 1) _
              exact ⟨h1, by omega⟩
      · rw [if_pos (by simpa using hs)]
        exact ⟨by simp, by dsimp only; omega⟩

/-- C5. The retry engine performs at most 3 fetch attempts per
retry-eligible call, and the fall-through fetch after the attempt loop is
unreachable: from the first attempt, every run returns or throws inside
the loop. -/
theorem retry_attempts_bounded (o : Nat → AttemptOutcome) (key : Str) (now : Nat)
    (m₀ : Str → Nat) :
    (fetchWithRetryModel o key now m₀).outcome ≠ .fellThrough ∧
    (fetchWithRetryModel o key now m₀).fetches ≤ DEFAULT_MAX_ATTEMPTS := by
  have h := retryLoop_no_fallthrough 3 1 (by norm_num [DEFAULT_MAX_ATTEMPTS])
    (by norm_num) o key now 0 m₀
  simpa [fetchWithRetryModel, DEFAULT_MAX_ATTEMPTS] using h

lemma domainBlocked_false_of_allowed {ei : ErrorInfoD}
    (hdom : ∀ d, ei.domain = some d → d ∈ CLOUDCODE_DOMAINS) :
    domainBlocked (some ei) = false := by
  unfold domainBlocked
  dsimp only
  rcases hd : ei.domain with _ | d
  · rfl
  · dsimp only
    have hc : CLOUDCODE_DOMAINS.contains d = true :=
      List.elem_eq_true_of_mem (hdom d hd)
    rw [hc]
    simp

/-- C3. A first-attempt 429 carrying a structured `ErrorInfo` with reason
`QUOTA_EXHAUSTED` from an allow-listed backend domain is terminal: the
engine performs exactly one fetch and returns that response, leaving the
cooldown map untouched. -/
theorem quota_exhausted_single_attempt (o : Nat → AttemptOutcome) (key : Str)
    (now : Nat) (m₀ : Str → Nat) (p : ErrorPayload) (ei : ErrorInfoD) (ab : Bool)
    (rd : Nat) (d : Str)
    (h1 : o 1 = .response 429 (some p) ab rd)
    (h2 : findErrorInfo p.details = some ei)
    (h3 : ei.reason = some QUOTA_EXHAUSTED)
    (h4 : ei.domain = some d) (h5 : d ∈ CLOUDCODE_DOMAINS) :
    fetchWithRetryModel o key now m₀ =
      ⟨.returned 1 429, 1, m₀⟩ := by
  have hdb : domainBlocked (some ei) = false :=
    domainBlocked_false_of_allowed (fun d2 hd2 => by
      rw [h4] at hd2
      cases hd2
      exact h5)
  have hcl : classifyQuotaResponse (some p) =
      some ⟨true, quotaRetryDelayMs p, some QUOTA_EXHAUSTED⟩ := by
    simp only [classifyQuotaResponse, h2, hdb, Bool.false_eq_true, if_false]
    rw [h3, if_pos rfl]
  rw [fetchWithRetryModel, retryLoop,
    dif_pos (by norm_num [DEFAULT_MAX_ATTEMPTS]), h1]
  dsimp only
  rw [if_neg (by simp [isRetryableStatusM])]
  rw [show (if (429 == 429) = true then classifyQuotaResponse (some p) else none) =
    classifyQuotaResponse (some p) from rfl, hcl]
  dsimp only
  rw [if_pos rfl, if_neg (by decide)]

/-- Witness for C3 at a concrete `QUOTA_EXHAUSTED` payload. -/
theorem quota_exhausted_single_attempt_witness :
    fetchWithRetryModel
      (fun _ => .response 429
        (some ⟨none, [.errorInfo ⟨some QUOTA_EXHAUSTED,
          some "cloudcode-pa.googleapis.com".data, none⟩]⟩) false 0)
      "k".data 0 (fun _ => 0) =
      ⟨.returned 1 429, 1, fun _ => 0⟩ :=
  quota_exhausted_single_attempt
    (fun _ => .response 429
      (some ⟨none, [.errorInfo ⟨some QUOTA_EXHAUSTED,
        some "cloudcode-pa.googleapis.com".data, none⟩]⟩) false 0)
    "k".data 0 (fun _ => 0)
    ⟨none, [.errorInfo ⟨some QUOTA_EXHAUSTED,
      some "cloudcode-pa.googleapis.com".data, none⟩]⟩
    ⟨some QUOTA_EXHAUSTED, some "cloudcode-pa.googleapis.com".data, none⟩
    false 0 "cloudcode-pa.googleapis.com".data
    rfl rfl rfl rfl (by simp [CLOUDCODE_DOMAINS])

/-- C2. For a 429 whose first structured `ErrorInfo` carries reason
`MODEL_CAPACITY_EXHAUSTED` (classification applies: any carried domain is
allow-listed), the classification is terminal exactly when no explicit
retry delay was extracted from `RetryInfo.retryDelay` or the message text;
when terminal, the engine returns after one attempt and sets the throttle
key's cooldown to the 8000 ms default (`max` with the existing entry at
`now + 8000`); when a delay is present, the classification is retryable
with that delay. -/
theorem model_capacity_terminal_iff_no_delay (o : Nat → AttemptOutcome) (key : Str)
    (now : Nat) (m₀ : Str → Nat) (p : ErrorPayload) (ei : ErrorInfoD) (ab : Bool)
    (rd : Nat)
    (h1 : o 1 = .response 429 (some p) ab rd)
    (h2 : findErrorInfo p.details = some ei)
    (h3 : ei.reason = some MODEL_CAPACITY_EXHAUSTED)
    (hdom : ∀ d, ei.domain = some d → d ∈ CLOUDCODE_DOMAINS) :
    classifyQuotaResponse (some p) =
      some ⟨(quotaRetryDelayMs p).isNone, quotaRetryDelayMs p,
        some MODEL_CAPACITY_EXHAUSTED⟩ ∧
    (quotaRetryDelayMs p = none →
      fetchWithRetryModel o key now m₀ =
        ⟨.returned 1 429, 1, setRetryCooldown m₀ key now MODEL_CAPACITY_COOLDOWN_MS⟩ ∧
      setRetryCooldown m₀ key now MODEL_CAPACITY_COOLDOWN_MS key =
        max (m₀ key) (now + 8000)) ∧
    (∀ dl, quotaRetryDelayMs p = some dl →
      classifyQuotaResponse (some p) =
        some ⟨false, some dl, some MODEL_CAPACITY_EXHAUSTED⟩) := by
  have hdb : domainBlocked (some ei) = false := domainBlocked_false_of_allowed hdom
  have hcl : classifyQuotaResponse (some p) =
      some ⟨(quotaRetryDelayMs p).isNone, quotaRetryDelayMs p,
        some MODEL_CAPACITY_EXHAUSTED⟩ := by
    simp only [classifyQuotaResponse, h2, hdb, Bool.false_eq_true, if_false]
    rw [h3, if_neg (by decide), if_neg (by decide), if_pos rfl]
  refine ⟨hcl, ?_, ?_⟩
  · intro hnone
    constructor
    · rw [fetchWithRetryModel, retryLoop,
        dif_pos (by norm_num [DEFAULT_MAX_ATTEMPTS]), h1]
      dsimp only
      rw [if_neg (by simp [isRetryableStatusM])]
      rw [show (if (429 == 429) = true then classifyQuotaResponse (some p) else none) =
        classifyQuotaResponse (some p) from rfl, hcl, hnone]
      dsimp only
      simp only [Option.isNone_none, if_true, Option.getD_none]
    · simp [setRetryCooldown, MODEL_CAPACITY_COOLDOWN_MS]
  · intro dl hdl
    rw [hcl, hdl]
    rfl

/-- Witness for C2: a `MODEL_CAPACITY_EXHAUSTED` payload with no delay hint
is terminal and triggers the 8000 ms cooldown. -/
theorem model_capacity_terminal_iff_no_delay_witness :
    classifyQuotaResponse (some ⟨none,
        [.errorInfo ⟨some MODEL_CAPACITY_EXHAUSTED, none, none⟩]⟩) =
      some ⟨(quotaRetryDelayMs ⟨none,
          [.errorInfo ⟨some MODEL_CAPACITY_EXHAUSTED, none, none⟩]⟩).isNone,
        quotaRetryDelayMs ⟨none,
          [.errorInfo ⟨some MODEL_CAPACITY_EXHAUSTED, none, none⟩]⟩,
        some MODEL_CAPACITY_EXHAUSTED⟩ ∧
    (quotaRetryDelayMs ⟨none,
        [.errorInfo ⟨some MODEL_CAPACITY_EXHAUSTED, none, none⟩]⟩ = none →
      fetchWithRetryModel
          (fun _ => .response 429 (some ⟨none,
            [.errorInfo ⟨some MODEL_CAPACITY_EXHAUSTED, none, none⟩]⟩) false 0)
          "k".data 0 (fun _ => 0) =
        ⟨.returned 1 429, 1,
          setRetryCooldown (fun _ => 0) "k".data 0 MODEL_CAPACITY_COOLDOWN_MS⟩ ∧
      setRetryCooldown (fun _ => 0) "k".data 0 MODEL_CAPACITY_COOLDOWN_MS "k".data =
        max ((fun _ => (0 : Nat)) "k".data) (0 + 8000)) ∧
    (∀ dl, quotaRetryDelayMs ⟨none,
        [.errorInfo ⟨some MODEL_CAPACITY_EXHAUSTED, none, none⟩]⟩ = some dl →
      classifyQuotaResponse (some ⟨none,
          [.errorInfo ⟨some MODEL_CAPACITY_EXHAUSTED, none, none⟩]⟩) =
        some ⟨false, some dl, some MODEL_CAPACITY_EXHAUSTED⟩) :=
  model_capacity_terminal_iff_no_delay
    (fun _ => .response 429 (some ⟨none,
      [.errorInfo ⟨some MODEL_CAPACITY_EXHAUSTED, none, none⟩]⟩) false 0)
    "k".data 0 (fun _ => 0)
    ⟨none, [.errorInfo ⟨some MODEL_CAPACITY_EXHAUSTED, none, none⟩]⟩
    ⟨some MODEL_CAPACITY_EXHAUSTED, none, none⟩ false 0
    rfl rfl rfl (fun d hd => by cases hd)

/-! ## Wrapped-body rewrite of the Request Transformer
(`transformRequestBody`, part_020 lines 97-140, wrapped branch, with
`normalizeWrappedIdentifiers` from request/identifiers)

A body already in wrapped shape (string `project` plus a `request` key) is
not re-wrapped: the code spreads it with `model` patched through the static
fallback table and then canonicalizes identifiers.  `freshId` stands for
the `randomUUID()` drawn for the request and `sid0` for the
process-lifetime session id. -/

def MODEL_FALLBACKS : String → Option String := fun m =>
  if m = "gemini-2.5-flash-image" then some "gemini-2.5-flash"
  else if m = "gemini-3.1-pro-preview" then some "gemini-3-pro-preview"
  else if m = "gemini-3.1-flash-preview" then some "gemini-3-flash-preview"
  else if m = "gemini-3.1-pro-preview-customtools" then some "gemini-3-pro-preview"
  else none

/-- `MODEL_FALLBACKS[rawModel] ?? rawModel`. -/
def applyModelFallback (m : String) : String := (MODEL_FALLBACKS m).getD m

/-- `pickString`: the first value that reads as a non-empty trimmed string. -/
def pickStringJ : List (Option Json) → Option String
  | [] => none
  | v :: rest =>
    match readStringJ v with
    | some s => some s
    | none => pickStringJ rest

def promptAliasKeys : List String :=
  ["user_prompt_id", "userPromptId", "prompt_id", "promptId", "request_id", "requestId"]

/-- `payload.extra_body` when it is a record. -/
def extraBody (payload : List (String × Json)) : Option Json :=
  match getField payload "extra_body" with
  | some j => if isRecordJ j then some j else none
  | none => none

/-- `resolveUserPromptId`: payload aliases, then request aliases, then
`extra_body` aliases, else the fresh `randomUUID()`. -/
def resolveUserPromptId (payload request : List (String × Json)) (freshId : String) :
    String :=
  (pickStringJ
    (promptAliasKeys.map (fun k => getField payload k) ++
     promptAliasKeys.map (fun k => getField request k) ++
     promptAliasKeys.map (fun k => (extraBody payload).bind (fun e => getFieldJ e k)))).getD
    freshId

/-- `resolveSessionId`: request then payload then `extra_body` spellings,
else the process-lifetime session id. -/
def resolveSessionId (payload request : List (String × Json)) (sid0 : String) : String :=
  (pickStringJ
    ([getField request "session_id", getField request "sessionId",
      getField payload "session_id", getField payload "sessionId"] ++
     (["session_id", "sessionId"].map
        (fun k => (extraBody payload).bind (fun e => getFieldJ e k))))).getD sid0

/-- `stripPromptIdentifierAliases`: deletes every prompt-identifier alias,
including `user_prompt_id` itself. -/
def stripPromptIdentifierAliases (payload : List (String × Json)) : List (String × Json) :=
  promptAliasKeys.foldl (fun acc k => deleteKey acc k) payload

/-- `{...wrapped.request}` when the property is a record, else `{}`. -/
def wrappedRequestRecord (wrapped : List (String × Json)) : List (String × Json) :=
  match getField wrapped "request" with
  | some j => if isRecordJ j then spreadToObj j else []
  | none => []

/-- `normalizeWrappedIdentifiers` (identifiers module, lines 330-345):
resolve the canonical ids, set `request.session_id`, drop the `sessionId`
alias, write the request copy back, set `user_prompt_id` on the envelope,
then strip the prompt-identifier aliases (which removes the just-set
`user_prompt_id` again); only the rewritten body is returned here, the
resolved ids feed the `x-activity-request-id` header. -/
def normalizeWrappedIdentifiers (wrapped : List (String × Json)) (freshId sid0 : String) :
    List (String × Json) :=
  stripPromptIdentifierAliases
    (setKey
      (setKey wrapped "request"
        (.obj (deleteKey
          (setKey (wrappedRequestRecord wrapped) "session_id"
            (.str (resolveSessionId wrapped (wrappedRequestRecord wrapped) sid0)))
          "sessionId")))
      "user_prompt_id"
      (.str (resolveUserPromptId wrapped (wrappedRequestRecord wrapped) freshId)))

/-- The wrapped branch of `transformRequestBody` (part_020 lines 107-113):
`{...parsedBody, model: effectiveModel}` followed by
`normalizeWrappedIdentifiers`. -/
def transformRequestBodyWrapped (parsedBody : List (String × Json))
    (rawModel freshId sid0 : String) : List (String × Json) :=
  normalizeWrappedIdentifiers
    (setKey parsedBody "model" (.str (applyModelFallback rawModel))) freshId sid0

lemma getField_foldl_deleteKey (ks : List String) (kvs : List (String × Json)) (k : String) :
    getField (ks.foldl (fun acc kk => deleteKey acc kk) kvs) k =
      if k ∈ ks then none else getField kvs k := by
  induction ks generalizing kvs with
  | nil => simp
  | cons k1 rest ih =>
    rw [List.foldl_cons, ih]
    by_cases h1 : k = k1
    · subst h1
      simp [getField_deleteKey_same]
    · by_cases h2 : k ∈ rest
      · simp [h2]
      · simp only [h2, if_false, List.mem_cons, h1, false_or]
        rw [getField_deleteKey_other kvs k1 k h1]

/-- C1 counterexample: for the wrapped body `{"project":"p","request":{}}`
the rewrite does not only patch `model` — the inner request object gains a
`session_id` field (and the envelope loses any prompt-identifier aliases),
so the output differs from the body with only `model` patched. -/
theorem wrapped_body_not_only_model_patch :
    transformRequestBodyWrapped [("project", .str "p"), ("request", .obj [])]
        "gemini-2.5-flash" "fresh-id" "sid" ≠
      setKey [("project", .str "p"), ("request", .obj [])] "model"
        (.str (applyModelFallback "gemini-2.5-flash")) := by
  intro h
  have h1 : getField (transformRequestBodyWrapped
      [("project", .str "p"), ("request", .obj [])] "gemini-2.5-flash" "fresh-id" "sid")
      "request" = some (.obj [("session_id", .str "sid")]) := rfl
  rw [h] at h1
  rw [show getField (setKey [("project", Json.str "p"), ("request", Json.obj [])] "model"
      (.str (applyModelFallback "gemini-2.5-flash"))) "request" = some (.obj []) from rfl]
    at h1
  injection h1 with h1a
  injection h1a with h1b
  cases h1b

/-- C1 amended. For every wrapped-shape body, the rewrite never re-wraps
and touches exactly the `model` field (via the static fallback table) and
the identifier canonicalization: the envelope loses all prompt-identifier
aliases (including `user_prompt_id` itself), the request object gains the
canonical `session_id` and loses the `sessionId` alias, and every other
envelope and request field is unchanged. -/
theorem wrapped_body_model_patch_frame (parsedBody : List (String × Json))
    (rawModel freshId sid0 proj : String) (req : Json)
    (hw1 : getField parsedBody "project" = some (.str proj))
    (hw2 : getField parsedBody "request" = some req) :
    getField (transformRequestBodyWrapped parsedBody rawModel freshId sid0) "model" =
      some (.str (applyModelFallback rawModel)) ∧
    (∀ k, k ≠ "model" → k ≠ "request" → k ∉ promptAliasKeys →
      getField (transformRequestBodyWrapped parsedBody rawModel freshId sid0) k =
        getField parsedBody k) ∧
    (∀ k, k ∈ promptAliasKeys →
      getField (transformRequestBodyWrapped parsedBody rawModel freshId sid0) k = none) ∧
    (∃ r2 sess,
      getField (transformRequestBodyWrapped parsedBody rawModel freshId sid0) "request" =
        some (.obj r2) ∧
      getField r2 "session_id" = some (.str sess) ∧
      getField r2 "sessionId" = none ∧
      (∀ k2, k2 ≠ "session_id" → k2 ≠ "sessionId" →
        getField r2 k2 = getField (if isRecordJ req then spreadToObj req else []) k2)) := by
  have hwreq : wrappedRequestRecord
      (setKey parsedBody "model" (.str (applyModelFallback rawModel))) =
      (if isRecordJ req then spreadToObj req else []) := by
    unfold wrappedRequestRecord
    rw [getField_setKey_other parsedBody "model" "request" _ (by decide), hw2]
  refine ⟨?_, ?_, ?_, ?_⟩
  · rw [transformRequestBodyWrapped, normalizeWrappedIdentifiers,
      stripPromptIdentifierAliases, getField_foldl_deleteKey,
      if_neg (by decide),
      getField_setKey_other _ "user_prompt_id" "model" _ (by decide),
      getField_setKey_other _ "request" "model" _ (by decide),
      getField_setKey_same]
  · intro k hk1 hk2 hk3
    have hup : k ≠ "user_prompt_id" := fun he => hk3 (by rw [he]; decide)
    rw [transformRequestBodyWrapped, normalizeWrappedIdentifiers,
      stripPromptIdentifierAliases, getField_foldl_deleteKey, if_neg hk3,
      getField_setKey_other _ "user_prompt_id" k _ hup,
      getField_setKey_other _ "request" k _ hk2,
      getField_setKey_other _ "model" k _ hk1]
  · intro k hk
    rw [transformRequestBodyWrapped, normalizeWrappedIdentifiers,
      stripPromptIdentifierAliases, getField_foldl_deleteKey, if_pos hk]
  · refine ⟨deleteKey
      (setKey (if isRecordJ req then spreadToObj req else []) "session_id"
        (.str (resolveSessionId
          (setKey parsedBody "model" (.str (applyModelFallback rawModel)))
          (wrappedRequestRecord
            (setKey parsedBody "model" (.str (applyModelFallback rawModel)))) sid0)))
      "sessionId",
      resolveSessionId (setKey parsedBody "model" (.str (applyModelFallback rawModel)))
        (wrappedRequestRecord
          (setKey parsedBody "model" (.str (applyModelFallback rawModel)))) sid0,
      ?_, ?_, ?_, ?_⟩
    · rw [transformRequestBodyWrapped, normalizeWrappedIdentifiers,
        stripPromptIdentifierAliases, getField_foldl_deleteKey, if_neg (by decide),
        getField_setKey_other _ "user_prompt_id" "request" _ (by decide),
        getField_setKey_same, hwreq]
    · rw [getField_deleteKey_other _ "sessionId" "session_id" (by decide),
        getField_setKey_same]
    · rw [getField_deleteKey_same]
    · intro k2 hk21 hk22
      rw [getField_deleteKey_other _ "sessionId" k2 hk22,
        getField_setKey_other _ "session_id" k2 _ hk21]

/-- Witness for C1 amended at the counterexample body. -/
theorem wrapped_body_model_patch_frame_witness :
    getField (transformRequestBodyWrapped [("project", .str "p"), ("request", .obj [])]
        "gemini-2.5-flash" "fresh-id" "sid") "model" =
      some (.str (applyModelFallback "gemini-2.5-flash")) ∧
    (∀ k, k ≠ "model" → k ≠ "request" → k ∉ promptAliasKeys →
      getField (transformRequestBodyWrapped [("project", .str "p"), ("request", .obj [])]
          "gemini-2.5-flash" "fresh-id" "sid") k =
        getField [("project", .str "p"), ("request", .obj [])] k) ∧
    (∀ k, k ∈ promptAliasKeys →
      getField (transformRequestBodyWrapped [("project", .str "p"), ("request", .obj [])]
          "gemini-2.5-flash" "fresh-id" "sid") k = none) ∧
    (∃ r2 sess,
      getField (transformRequestBodyWrapped [("project", .str "p"), ("request", .obj [])]
          "gemini-2.5-flash" "fresh-id" "sid") "request" = some (.obj r2) ∧
      getField r2 "session_id" = some (.str sess) ∧
      getField r2 "sessionId" = none ∧
      (∀ k2, k2 ≠ "session_id" → k2 ≠ "sessionId" →
        getField r2 k2 =
          getField (if isRecordJ (.obj []) then spreadToObj (.obj []) else []) k2)) :=
  wrapped_body_model_patch_frame [("project", .str "p"), ("request", .obj [])]
    "gemini-2.5-flash" "fresh-id" "sid" "p" (.obj []) rfl rfl
